import Mathlib

/-!
Verification of the PDF extraction pipeline (src/pro2.py, src/toll_extract.py).

A shallow embedding of the two pipeline variants:
* `Pro2` — the procurement variant (`src/pro2.py`): character-bounded chunking,
  unconditional `source_url` annotation, `normalize_rows` list coercion.
* `Toll` — the financial variant (`src/toll_extract.py`): row-bounded chunking,
  table-first page acquisition, `setdefault` annotation, no list coercion.

Python strings are modelled as `List Char` (wrapped in `String` at the API
boundary), Python dicts produced by `json.loads` as association lists
(`List (String × JsonVal)`) with unique keys, and pandas `drop_duplicates`
as an `Except` computation (it raises `TypeError` on unhashable cells).
-/

/-! ## Python string primitives -/

/-- The whitespace set of Python `str.strip` / `str.isspace` (and of `re`'s
`\s` on `str` patterns): ASCII whitespace, the information separators
`\x1c`–`\x1e`, NEL, NBSP and the Unicode space characters. -/
def pyIsSpace (c : Char) : Bool :=
  c.toNat = 0x20 || c.toNat = 0x9 || c.toNat = 0xa || c.toNat = 0xb ||
  c.toNat = 0xc || c.toNat = 0xd || c.toNat = 0x1c || c.toNat = 0x1d ||
  c.toNat = 0x1e || c.toNat = 0x85 || c.toNat = 0xa0 || c.toNat = 0x1680 ||
  (0x2000 ≤ c.toNat && c.toNat ≤ 0x200a) || c.toNat = 0x2028 ||
  c.toNat = 0x2029 || c.toNat = 0x202f || c.toNat = 0x205f || c.toNat = 0x3000

/-- Python `str.strip()` on a character list: drop leading and trailing
whitespace. -/
def pyStripL (cs : List Char) : List Char :=
  ((cs.dropWhile pyIsSpace).reverse.dropWhile pyIsSpace).reverse

/-- Python `str.strip()`. -/
def pyStrip (s : String) : String := String.mk (pyStripL s.data)

/-- The line terminators recognised by Python `str.splitlines`. -/
def isLineTerm (c : Char) : Bool :=
  c.toNat = 0xa || c.toNat = 0xd || c.toNat = 0xb || c.toNat = 0xc ||
  c.toNat = 0x1c || c.toNat = 0x1d || c.toNat = 0x1e || c.toNat = 0x85 ||
  c.toNat = 0x2028 || c.toNat = 0x2029

/-- Prepend a character to the first line of a line list (helper for
`splitLinesCore`). -/
def consHead (c : Char) : List (List Char) → List (List Char)
  | [] => [[c]]
  | l :: ls => (c :: l) :: ls

/-- Python `str.splitlines()` on a character list: split at line terminators
(`\r\n` counts as a single terminator), no trailing empty line. -/
def splitLinesCore : List Char → List (List Char)
  | [] => []
  | c :: rest =>
    if isLineTerm c then
      if c = '\r' then
        match rest with
        | '\n' :: rest2 => [] :: splitLinesCore rest2
        | r => [] :: splitLinesCore r
      else [] :: splitLinesCore rest
    else consHead c (splitLinesCore rest)

/-- Python `str.splitlines()`. -/
def pySplitLines (s : String) : List String :=
  (splitLinesCore s.data).map String.mk

/-! ## The chunk data model (src/pro2.py lines 54–69, src/toll_extract.py
lines 66–81): a chunk is a dict `{"page": page_no, "text": ...}`. -/

structure Chunk where
  page : Nat
  text : String
deriving DecidableEq, Repr

/-- Python `"\n".join(...)` on a list of lines. -/
def joinNl : List (List Char) → List Char
  | [] => []
  | [l] => l
  | l :: ls => l ++ '\n' :: joinNl ls

namespace Pro2

/-- Loop body of `build_chunks` in `src/pro2.py` (lines 58–64): append each
non-blank line plus a space to the buffer; whenever the buffer reaches
`max_chars`, emit `buf.strip()` and reset.  After the loop (lines 66–67)
flush the remainder if `buf.strip()` is truthy. -/
def chunksCharGo (page_no max_chars : Nat) :
    List (List Char) → List Char → List Chunk
  | [], buf =>
    if pyStripL buf ≠ [] then [⟨page_no, String.mk (pyStripL buf)⟩] else []
  | l :: ls, buf =>
    let buf1 := if pyStripL l ≠ [] then buf ++ l ++ [' '] else buf
    if max_chars ≤ buf1.length then
      ⟨page_no, String.mk (pyStripL buf1)⟩ :: chunksCharGo page_no max_chars ls []
    else
      chunksCharGo page_no max_chars ls buf1

/-- `build_chunks` of `src/pro2.py` (lines 54–69): character-bounded chunking
with threshold `max_chars = 2000`. -/
def build_chunks (text : String) (page_no : Nat) (max_chars : Nat := 2000) :
    List Chunk :=
  chunksCharGo page_no max_chars (splitLinesCore text.data) []

end Pro2

namespace Toll

/-- Loop body of `build_chunks` in `src/toll_extract.py` (lines 70–79):
collect non-blank lines; whenever the buffer holds `max_rows` lines, emit
them joined by newlines and reset; flush a non-empty remainder. -/
def chunksRowGo (page_no max_rows : Nat) :
    List (List Char) → List (List Char) → List Chunk
  | [], buf =>
    if buf ≠ [] then [⟨page_no, String.mk (joinNl buf)⟩] else []
  | l :: ls, buf =>
    let buf1 := if pyStripL l ≠ [] then buf ++ [l] else buf
    if max_rows ≤ buf1.length then
      ⟨page_no, String.mk (joinNl buf1)⟩ ::
        chunksRowGo page_no max_rows ls []
    else
      chunksRowGo page_no max_rows ls buf1

/-- `build_chunks` of `src/toll_extract.py` (lines 66–81): row-bounded
chunking with threshold `max_rows = 30`. -/
def build_chunks (text : String) (page_no : Nat) (max_rows : Nat := 30) :
    List Chunk :=
  chunksRowGo page_no max_rows (splitLinesCore text.data) []

end Toll

/-- The non-blank lines of a page text, in order: the lines whose `strip()`
is non-empty (the lines both chunkers keep). -/
def nonBlankLinesCore (cs : List Char) : List (List Char) :=
  (splitLinesCore cs).filter (fun l => pyStripL l ≠ [])

/-! ## JSON values and Python dicts

`json.loads` yields `None`/`bool`/`int`/`float`/`str`/`list`/`dict`.
Integer literals become `num`; literals with a fractional or exponent part
(and the non-standard `NaN`/`Infinity` accepted by `json.loads`) are kept as
their source text in `numRaw` — no claim depends on float arithmetic.
A dict is an association list with unique keys in insertion order. -/

inductive JsonVal where
  | null
  | bool (b : Bool)
  | num (n : Int)
  | numRaw (lit : String)
  | str (s : String)
  | arr (elems : List JsonVal)
  | obj (fields : List (String × JsonVal))

mutual

/-- Structural equality of parsed JSON values (Python `==`).  Object field
lists compare pairwise in insertion order; Python dict equality ignores
order, but the pipeline only ever compares values whose object fields come
from the same parse (and `drop_duplicates` aborts with `TypeError` on
dict-valued cells before comparing them), so the difference is never
observable here. -/
def beqVal : JsonVal → JsonVal → Bool
  | .null, .null => true
  | .bool a, .bool b => a = b
  | .num a, .num b => a = b
  | .numRaw a, .numRaw b => a = b
  | .str a, .str b => a = b
  | .arr xs, .arr ys => beqValList xs ys
  | .obj xs, .obj ys => beqValFields xs ys
  | _, _ => false

/-- Elementwise structural equality of JSON value lists. -/
def beqValList : List JsonVal → List JsonVal → Bool
  | [], [] => true
  | x :: xs, y :: ys => beqVal x y && beqValList xs ys
  | _, _ => false

/-- Pairwise structural equality of JSON object field lists. -/
def beqValFields : List (String × JsonVal) → List (String × JsonVal) → Bool
  | [], [] => true
  | (k1, v1) :: xs, (k2, v2) :: ys => k1 = k2 && beqVal v1 v2 && beqValFields xs ys
  | _, _ => false

end

/-- A row, as produced by the parser: a Python dict from field name to value. -/
abbrev Row := List (String × JsonVal)

/-- Python `k in d`. -/
def dictHasKey (r : Row) (k : String) : Bool := r.any (fun kv => kv.1 = k)

/-- Python `d[k]` as an option. -/
def dictGet (r : Row) (k : String) : Option JsonVal :=
  (r.find? (fun kv => kv.1 = k)).map (fun kv => kv.2)

/-- Python `d[k] = v`: overwrite in place if the key exists (keeping its
position), otherwise append. -/
def dictSet (r : Row) (k : String) (v : JsonVal) : Row :=
  if dictHasKey r k then
    r.map (fun kv => if kv.1 = k then (k, v) else kv)
  else r ++ [(k, v)]

/-- Python `d.setdefault(k, v)`: insert only when the key is absent. -/
def setdefault (r : Row) (k : String) (v : JsonVal) : Row :=
  if dictHasKey r k then r else r ++ [(k, v)]

/-! ## `json.loads` (the strict JSON grammar of Python's `json` module) -/

/-- JSON inter-token whitespace (`json` accepts exactly these four). -/
def jsonWs (c : Char) : Bool := c = ' ' || c = '\t' || c = '\n' || c = '\r'

def skipWs (cs : List Char) : List Char := cs.dropWhile jsonWs

def isJsonDigit (c : Char) : Bool := '0' ≤ c && c ≤ '9'

def digitsToNat (ds : List Char) : Nat :=
  ds.foldl (fun a c => a * 10 + (c.toNat - 48)) 0

/-- Hexadecimal digit value for `\uXXXX` escapes. -/
def hexVal (c : Char) : Option Nat :=
  if '0' ≤ c && c ≤ '9' then some (c.toNat - 48)
  else if 'a' ≤ c && c ≤ 'f' then some (c.toNat - 87)
  else if 'A' ≤ c && c ≤ 'F' then some (c.toNat - 55)
  else none

/-- Parse the number starting at `cs` following the regex of `json`:
`-?(0|[1-9][0-9]*)(\.[0-9]+)?([eE][+-]?[0-9]+)?`, longest match; anything
after the match is left to the caller.  Integers become `num`, literals with
a fraction or exponent keep their text in `numRaw`. -/
def parseNumber (cs : List Char) : Option (JsonVal × List Char) :=
  let negp := cs.headD 'x' = '-'
  let cs1 := if negp then cs.tail else cs
  let ds := cs1.takeWhile isJsonDigit
  let rest1 := cs1.dropWhile isJsonDigit
  if ds.isEmpty then none
  else if 1 < ds.length && ds.headD '0' = '0' then none
  else
    let fracPair : List Char × List Char :=
      match rest1 with
      | '.' :: r =>
        let fd := r.takeWhile isJsonDigit
        if fd.isEmpty then ([], rest1) else ('.' :: fd, r.dropWhile isJsonDigit)
      | _ => ([], rest1)
    let rest2 := fracPair.2
    let expPair : List Char × List Char :=
      match rest2 with
      | 'e' :: '+' :: r =>
        let ed := r.takeWhile isJsonDigit
        if ed.isEmpty then ([], rest2)
        else (['e', '+'] ++ ed, r.dropWhile isJsonDigit)
      | 'e' :: '-' :: r =>
        let ed := r.takeWhile isJsonDigit
        if ed.isEmpty then ([], rest2)
        else (['e', '-'] ++ ed, r.dropWhile isJsonDigit)
      | 'e' :: r =>
        let ed := r.takeWhile isJsonDigit
        if ed.isEmpty then ([], rest2)
        else ('e' :: ed, r.dropWhile isJsonDigit)
      | 'E' :: '+' :: r =>
        let ed := r.takeWhile isJsonDigit
        if ed.isEmpty then ([], rest2)
        else (['E', '+'] ++ ed, r.dropWhile isJsonDigit)
      | 'E' :: '-' :: r =>
        let ed := r.takeWhile isJsonDigit
        if ed.isEmpty then ([], rest2)
        else (['E', '-'] ++ ed, r.dropWhile isJsonDigit)
      | 'E' :: r =>
        let ed := r.takeWhile isJsonDigit
        if ed.isEmpty then ([], rest2)
        else ('E' :: ed, r.dropWhile isJsonDigit)
      | _ => ([], rest2)
    let sign : List Char := if negp then ['-'] else []
    if fracPair.1.isEmpty && expPair.1.isEmpty then
      let n : Int := Int.ofNat (digitsToNat ds)
      some (.num (if negp then -n else n), rest1)
    else
      some (.numRaw (String.mk (sign ++ ds ++ fracPair.1 ++ expPair.1)),
            expPair.2)

/-- A lexed JSON string element: a literal character or a `\uXXXX` escape
(kept as its code unit so surrogate pairs can be combined afterwards). -/
inductive StrTok where
  | chr (c : Char)
  | uesc (n : Nat)

/-- Lex a JSON string body after the opening quote; returns the tokens and
the input after the closing quote.  Strict mode: raw control characters and
unknown escapes are rejected. -/
def parseStrToks : List Char → Option (List StrTok × List Char)
  | [] => none
  | '"' :: rest => some ([], rest)
  | '\\' :: 'u' :: h1 :: h2 :: h3 :: h4 :: rest =>
    match hexVal h1, hexVal h2, hexVal h3, hexVal h4 with
    | some a, some b, some c, some d =>
      let n := ((a * 16 + b) * 16 + c) * 16 + d
      (parseStrToks rest).map (fun p => (.uesc n :: p.1, p.2))
    | _, _, _, _ => none
  | '\\' :: e :: rest =>
    let dec : Option Char :=
      if e = '"' then some '"'
      else if e = '\\' then some '\\'
      else if e = '/' then some '/'
      else if e = 'b' then some (Char.ofNat 8)
      else if e = 'f' then some (Char.ofNat 12)
      else if e = 'n' then some '\n'
      else if e = 'r' then some '\r'
      else if e = 't' then some '\t'
      else none
    match dec with
    | some c => (parseStrToks rest).map (fun p => (.chr c :: p.1, p.2))
    | none => none
  | c :: rest =>
    if c.toNat < 0x20 then none
    else (parseStrToks rest).map (fun p => (.chr c :: p.1, p.2))

/-- Decode the lexed tokens: adjacent `\uXXXX` surrogate pairs are combined;
a lone surrogate (which Python keeps as-is but is no valid Lean `Char`) is
replaced by U+FFFD. -/
def decodeStrToks : List StrTok → List Char
  | [] => []
  | .chr c :: rest => c :: decodeStrToks rest
  | .uesc n :: .uesc m :: rest2 =>
    if (0xd800 ≤ n && n ≤ 0xdbff) && (0xdc00 ≤ m && m ≤ 0xdfff) then
      Char.ofNat (0x10000 + (n - 0xd800) * 0x400 + (m - 0xdc00)) ::
        decodeStrToks rest2
    else if 0xd800 ≤ n && n ≤ 0xdfff then
      Char.ofNat 0xfffd :: decodeStrToks (.uesc m :: rest2)
    else Char.ofNat n :: decodeStrToks (.uesc m :: rest2)
  | .uesc n :: rest =>
    if 0xd800 ≤ n && n ≤ 0xdfff then Char.ofNat 0xfffd :: decodeStrToks rest
    else Char.ofNat n :: decodeStrToks rest

/-- Parse a JSON string body after the opening quote; returns the decoded
characters and the input after the closing quote. -/
def parseStrChars (cs : List Char) : Option (List Char × List Char) :=
  (parseStrToks cs).map (fun p => (decodeStrToks p.1, p.2))

mutual

/-- Parse one JSON value at the head of the input (whitespace already
skipped), returning the value and the remaining input.  Mirrors Python's
`json` decoder, including the non-standard `NaN`/`Infinity` constants it
accepts.  The fuel only bounds the recursion depth; `json_loads` supplies
more fuel than any input of its length can consume. -/
def parseVal : Nat → List Char → Option (JsonVal × List Char)
  | 0, _ => none
  | _ + 1, [] => none
  | fuel + 1, c0 :: cs0 =>
    match c0 :: cs0 with
    | 'n' :: 'u' :: 'l' :: 'l' :: rest => some (.null, rest)
    | 't' :: 'r' :: 'u' :: 'e' :: rest => some (.bool true, rest)
    | 'f' :: 'a' :: 'l' :: 's' :: 'e' :: rest => some (.bool false, rest)
    | 'N' :: 'a' :: 'N' :: rest => some (.numRaw "NaN", rest)
    | 'I' :: 'n' :: 'f' :: 'i' :: 'n' :: 'i' :: 't' :: 'y' :: rest =>
      some (.numRaw "Infinity", rest)
    | '-' :: 'I' :: 'n' :: 'f' :: 'i' :: 'n' :: 'i' :: 't' :: 'y' :: rest =>
      some (.numRaw "-Infinity", rest)
    | '"' :: rest =>
      (parseStrChars rest).map (fun p => (.str (String.mk p.1), p.2))
    | '[' :: rest =>
      match skipWs rest with
      | ']' :: rest2 => some (.arr [], rest2)
      | cs1 =>
        match parseVal fuel cs1 with
        | some (v, r) => parseArrRest fuel [v] r
        | none => none
    | '{' :: rest =>
      match skipWs rest with
      | '}' :: rest2 => some (.obj [], rest2)
      | '"' :: cs1 =>
        match parseStrChars cs1 with
        | some (key, r1) =>
          match skipWs r1 with
          | ':' :: r2 =>
            match parseVal fuel (skipWs r2) with
            | some (v, r3) =>
              parseObjRest fuel (dictSet [] (String.mk key) v) r3
            | none => none
          | _ => none
        | none => none
      | _ => none
    | cs => parseNumber cs

/-- Parse the rest of a JSON array after its first element ( `, value`
repeated, then `]` ); the accumulator holds the elements in reverse. -/
def parseArrRest : Nat → List JsonVal → List Char → Option (JsonVal × List Char)
  | 0, _, _ => none
  | fuel + 1, acc, cs =>
    match skipWs cs with
    | ']' :: rest => some (.arr acc.reverse, rest)
    | ',' :: rest =>
      match parseVal fuel (skipWs rest) with
      | some (v, r) => parseArrRest fuel (v :: acc) r
      | none => none
    | _ => none

/-- Parse the rest of a JSON object after its first member; later duplicate
keys overwrite earlier ones, as in Python. -/
def parseObjRest : Nat → Row → List Char → Option (JsonVal × List Char)
  | 0, _, _ => none
  | fuel + 1, acc, cs =>
    match skipWs cs with
    | '}' :: rest => some (.obj acc, rest)
    | ',' :: rest =>
      match skipWs rest with
      | '"' :: cs1 =>
        match parseStrChars cs1 with
        | some (key, r1) =>
          match skipWs r1 with
          | ':' :: r2 =>
            match parseVal fuel (skipWs r2) with
            | some (v, r3) =>
              parseObjRest fuel (dictSet acc (String.mk key) v) r3
            | none => none
          | _ => none
        | none => none
      | _ => none
    | _ => none

end

/-- Python `json.loads`: skip leading whitespace, parse one value, require
only whitespace to follow. -/
def json_loads (s : String) : Option JsonVal :=
  match parseVal (4 * s.data.length + 16) (skipWs s.data) with
  | some (v, rest) => if skipWs rest = [] then some v else none
  | none => none

/-! ## The bracket-scan fallback: `re.search(r"\[\s*{.*?}\s*\]", text, re.DOTALL)`
(src/pro2.py line 79, src/toll_extract.py line 91).  The regex engine finds
the leftmost starting position, `\s*` before `{` deterministically swallows
all whitespace, and the lazy `.*?` stops at the first `}` that is followed by
whitespace and `]`. -/

/-- Scan for the shortest `.*?}\s*]` completion: the first `}` followed by
optional whitespace and `]` ends the match; other characters (including
newlines, under `re.DOTALL`) are consumed by `.*?`. -/
def bracketTail : List Char → Option (List Char)
  | [] => none
  | '}' :: rest =>
    let ws := rest.takeWhile pyIsSpace
    match rest.dropWhile pyIsSpace with
    | ']' :: _ => some ('}' :: ws ++ [']'])
    | _ => (bracketTail rest).map (fun t => '}' :: t)
  | c :: rest => (bracketTail rest).map (fun t => c :: t)

/-- Try to match `\[\s*{.*?}\s*\]` at this position (the input starts just
after a `[`); returns the matched substring. -/
def bracketFrom (cs : List Char) : Option (List Char) :=
  let ws := cs.takeWhile pyIsSpace
  match cs.dropWhile pyIsSpace with
  | '{' :: rest2 => (bracketTail rest2).map (fun t => '[' :: ws ++ '{' :: t)
  | _ => none

/-- `re.search`: try each start position left to right. -/
def searchBracket : List Char → Option (List Char)
  | [] => none
  | '[' :: rest =>
    match bracketFrom rest with
    | some m => some m
    | none => searchBracket rest
  | _ :: rest => searchBracket rest

/-- `safe_json_parse` of `src/pro2.py` (lines 73–86) and
`src/toll_extract.py` (lines 85–98): try `json.loads` on the whole text;
on failure search for the first `\[\s*{.*?}\s*\]` substring and try to parse
that; return the empty list if that fails too or no match exists. -/
def safe_json_parse (s : String) : JsonVal :=
  match json_loads s with
  | some v => v
  | none =>
    match searchBracket s.data with
    | some m => (json_loads (String.mk m)).getD (.arr [])
    | none => .arr []

/-! ## Row normalization (src/pro2.py lines 91–96) -/

mutual

/-- Python `repr` of a parsed JSON value (as used by `str` on containers).
String quoting/escaping inside containers is approximated by plain single
quotes; no claim depends on it. -/
def pyRepr : JsonVal → String
  | .null => "None"
  | .bool true => "True"
  | .bool false => "False"
  | .num n => toString n
  | .numRaw lit => lit
  | .str s => String.mk (Char.ofNat 39 :: s.data ++ [Char.ofNat 39])
  | .arr xs => "[" ++ String.intercalate ", " (pyReprList xs) ++ "]"
  | .obj fs => "\x7b" ++ String.intercalate ", " (pyReprFields fs) ++ "\x7d"

/-- `repr` of each element of a list. -/
def pyReprList : List JsonVal → List String
  | [] => []
  | v :: vs => pyRepr v :: pyReprList vs

/-- `repr` of each `key: value` pair of a dict. -/
def pyReprFields : List (String × JsonVal) → List String
  | [] => []
  | (k, v) :: fs =>
    (String.mk (Char.ofNat 39 :: k.data ++ [Char.ofNat 39]) ++ ": " ++ pyRepr v)
      :: pyReprFields fs

end

/-- Python `str(x)` on a parsed JSON value. -/
def pyStr : JsonVal → String
  | .str s => s
  | v => pyRepr v

/-- The coercion `normalize_rows` applies to one field value
(src/pro2.py line 95): a list becomes `", ".join(str(x) for x in v)`;
anything else is untouched. -/
def coerceVal : JsonVal → JsonVal
  | .arr xs => .str (String.intercalate ", " (xs.map pyStr))
  | v => v

/-- `normalize_rows` of `src/pro2.py` (lines 91–96): coerce every
list-valued field of every row into a comma-joined string. -/
def normalize_rows (rows : List Row) : List Row :=
  rows.map (fun r => r.map (fun kv => (kv.1, coerceVal kv.2)))

/-! ## pandas `DataFrame(rows).drop_duplicates()`
(src/pro2.py lines 195–196, src/toll_extract.py lines 288–289).

`DataFrame(rows)` aligns every row to the union of all field names in
first-seen order, filling missing cells with `NaN`; `duplicated()` treats
`None` and `NaN` as the same missing value and raises `TypeError` on
unhashable cells (lists, dicts); `drop_duplicates()` keeps the first row of
each equivalence class, preserving order.  Numeric cells are compared
structurally here; the hash-based identifications Python itself would make
across types (`1 == 1.0 == True`) are not modelled — no claim exercises
mixed-type numeric cells. -/

/-- A cell value is hashable (pandas `factorize` raises on lists/dicts). -/
def hashableVal : JsonVal → Bool
  | .arr _ => false
  | .obj _ => false
  | _ => true

/-- All cells of all rows are hashable. -/
def allHashable (rows : List Row) : Bool :=
  rows.all (fun r => r.all (fun kv => hashableVal kv.2))

/-- The DataFrame columns: union of the rows' keys in first-seen order. -/
def rowColumns (rows : List Row) : List String :=
  rows.foldl
    (fun acc r =>
      r.foldl (fun a kv => if a.contains kv.1 then a else a ++ [kv.1]) acc)
    []

/-- The cell of row `r` in column `c`: a missing field is `NaN` and `None`
is the same missing value, both modelled as `null` (so is a float `nan`
the model emitted as a JSON `NaN` literal). -/
def cellVal (r : Row) (c : String) : JsonVal :=
  match dictGet r c with
  | some v => if beqVal v (.numRaw "NaN") then .null else v
  | none => .null

/-- The aligned value vector of a row. -/
def rowVec (cols : List String) (r : Row) : List JsonVal :=
  cols.map (cellVal r)

/-- pandas `duplicated()`: mark each vector that equals an earlier one. -/
def dupMask : List (List JsonVal) → List (List JsonVal) → List Bool
  | [], _ => []
  | v :: vs, seen => seen.any (beqValList v) :: dupMask vs (seen ++ [v])

/-- `pd.DataFrame(rows).drop_duplicates()` restricted to the row content it
keeps: `TypeError` on unhashable cells, otherwise the rows whose aligned
vector did not occur earlier, in order. -/
def drop_duplicates (rows : List Row) : Except String (List Row) :=
  if allHashable rows then
    let cols := rowColumns rows
    let mask := dupMask (rows.map (rowVec cols)) []
    .ok (((rows.zip mask).filter (fun p => !p.2)).map (fun p => p.1))
  else .error "TypeError: unhashable type"

namespace Pro2

/-- The row content persisted by `save_output` of `src/pro2.py`
(lines 188–197): `normalize_rows`, then `drop_duplicates`. -/
def save_output_rows (rows : List Row) : Except String (List Row) :=
  drop_duplicates (normalize_rows rows)

end Pro2

namespace Toll

/-- The row content persisted by `save_output` of `src/toll_extract.py`
(lines 283–290): `drop_duplicates` directly — there is no normalization
step in this variant. -/
def save_output_rows (rows : List Row) : Except String (List Row) :=
  drop_duplicates rows

end Toll

/-! ## Driver annotation (src/pro2.py lines 179–180, src/toll_extract.py
lines 271–274) -/

namespace Pro2

/-- `SOURCE_URL` of `src/pro2.py` (line 29). -/
def SOURCE_URL : String :=
  "https://floridasturnpike.com/wp-content/uploads/2025/12/TPK_PRESENTATION_OF_FY_2027_CONSULTANT_PLAN.pdf"

/-- The annotation step of `run_pipeline` in `src/pro2.py` (lines 179–180):
`r["source_url"] = SOURCE_URL` for every parsed row — an unconditional
assignment. -/
def annotate_rows (rows : List Row) : List Row :=
  rows.map (fun r => dictSet r "source_url" (.str SOURCE_URL))

end Pro2

namespace Toll

/-- `AGENCY` of `src/toll_extract.py` (line 27). -/
def AGENCY : String := "New Jersey Turnpike Authority"

/-- `ASSET_TYPE` of `src/toll_extract.py` (line 28). -/
def ASSET_TYPE : String := "Toll Road"

/-- `SOURCE_URL` of `src/toll_extract.py` (line 29). -/
def SOURCE_URL : String := "https://www.njta.gov/document/njta-traffic-revenue/"

/-- The annotation step of `run_pipeline` in `src/toll_extract.py`
(lines 271–274): `setdefault` of `asset_type`, `agency` and `source_url`
in that order, filling only missing fields. -/
def annotate_rows (rows : List Row) : List Row :=
  rows.map (fun r =>
    setdefault (setdefault (setdefault r "asset_type" (.str ASSET_TYPE))
        "agency" (.str AGENCY))
      "source_url" (.str SOURCE_URL))

end Toll

/-! ## Page acquisition (src/pro2.py lines 163–172, src/toll_extract.py
lines 243–261)

A page of the document is modelled by what the external collaborators would
return for it: `extract_text()` (possibly `None`), `extract_tables()` and the
OCR result for that page. -/

structure Page where
  nativeText : Option String
  tables : List (List (List (Option String)))
  ocrText : String

/-- The OCR trigger condition shared by both variants: `extract_text()`
returned a falsy value (`None` or `""`) or its stripped length is below 50
(`if not text or len(text.strip()) < 50`). -/
def nativeTooShort (t : Option String) : Bool :=
  match t with
  | none => true
  | some s => s = "" || (pyStripL s.data).length < 50

namespace Pro2

/-- Page-text acquisition of `run_pipeline` in `src/pro2.py`
(lines 167–169): native text, with OCR fallback when it is falsy or its
stripped length is below 50.  Returns the text used and whether
`ocr_page` was invoked. -/
def acquire_text (pg : Page) : String × Bool :=
  if nativeTooShort pg.nativeText then (pg.ocrText, true)
  else (pg.nativeText.getD "", false)

end Pro2

namespace Toll

/-- One CSV field of `DataFrame.to_csv` (QUOTE_MINIMAL): quote when the
cell contains a comma, quote, newline or carriage return, doubling inner
quotes; a missing (`NaN`) cell prints as the empty string. -/
def csvField (cell : Option String) : List Char :=
  match cell with
  | none => []
  | some s =>
    if s.data.any (fun c => c = ',' || c = '"' || c = '\n' || c = '\r') then
      '"' :: (s.data.flatMap (fun c => if c = '"' then ['"', '"'] else [c])) ++ ['"']
    else s.data

/-- `df.replace("\n", " ", regex=True)` on one cell: each newline becomes a
space (missing cells stay missing). -/
def replaceNl (cell : Option String) : Option String :=
  cell.map (fun s => String.mk (s.data.map (fun c => if c = '\n' then ' ' else c)))

/-- `pd.DataFrame(t).to_csv(index=False)` for one extracted table: a header
of the integer column labels `0..n-1` (`n` the widest row), then each row's
cells comma-joined, each line ending in `\n`; short rows are padded with
missing cells. -/
def tableToCsv (t : List (List (Option String))) : String :=
  let ncols := t.foldr (fun row acc => max row.length acc) 0
  let header := List.intercalate [','] ((List.range ncols).map (fun i => (toString i).data))
  let body := t.map (fun row =>
    List.intercalate [',']
      ((List.range ncols).map (fun i => csvField (replaceNl ((row.get? i).getD none)))))
  String.mk ((header :: body).flatMap (fun l => l ++ ['\n']))

/-- `tables_to_text` of `src/toll_extract.py` (lines 55–61): serialize each
table to CSV (newlines in cells replaced by spaces) and join the blocks
with a blank line. -/
def tables_to_text (tables : List (List (List (Option String)))) : String :=
  String.intercalate "\n\n" (tables.map tableToCsv)

/-- Page-text acquisition of `run_pipeline` in `src/toll_extract.py`
(lines 253–259): if the page has extracted tables, use their serialized
text with no further checks; otherwise native text with the same OCR
fallback as the other variant.  Returns the text used and whether
`ocr_page` was invoked. -/
def acquire_text (pg : Page) : String × Bool :=
  if pg.tables ≠ [] then (tables_to_text pg.tables, false)
  else if nativeTooShort pg.nativeText then (pg.ocrText, true)
  else (pg.nativeText.getD "", false)

end Toll

/-! ## Page iteration (src/pro2.py lines 163–165, src/toll_extract.py
lines 243–251) -/

namespace Pro2

/-- `START_PAGE` of `src/pro2.py` (line 26). -/
def START_PAGE : Nat := 1

/-- `END_PAGE` of `src/pro2.py` (line 27). -/
def END_PAGE : Nat := 25

/-- The 0-based indices at which `run_pipeline` of `src/pro2.py` subscripts
`pdf.pages` (lines 164–165): `page_no - 1` for `page_no` in
`range(start_page, end_page + 1)` — the document's page count is never
consulted. -/
def page_indices (start_page end_page : Nat) : List Nat :=
  (List.range' start_page (end_page + 1 - start_page)).map (fun i => i - 1)

end Pro2

namespace Toll

/-- `START_PAGE` of `src/toll_extract.py` (line 24). -/
def START_PAGE : Nat := 1

/-- `END_PAGE` of `src/toll_extract.py` (line 25). -/
def END_PAGE : Nat := 3

/-- The 0-based indices at which `run_pipeline` of `src/toll_extract.py`
subscripts `pdf.pages` (lines 244–251): `end_page = END_PAGE or total_pages`
(Python `or`: `0` falls back), then `page_no - 1` for `page_no` in
`range(start_page, min(end_page, total_pages) + 1)`. -/
def page_indices (start_page end_page total_pages : Nat) : List Nat :=
  let e := if end_page = 0 then total_pages else end_page
  (List.range' start_page (min e total_pages + 1 - start_page)).map (fun i => i - 1)

end Toll

/-! ## Specification-side definitions

These definitions follow the spec's words (not the source); the theorems
below compare the source embeddings against them. -/

/-- The length of the longest line of a text (0 for no lines). -/
def maxLineLen (text : String) : Nat :=
  ((splitLinesCore text.data).map List.length).foldr max 0

/-- Join a group of lines the way the character-bounded buffer does:
every line followed by one space (`buf += line + " "`). -/
def spaceJoinTrail (g : List (List Char)) : List Char :=
  (g.map (fun l => l ++ [' '])).flatten

/-- The grouping of kept lines induced by the character-bounded chunker:
mirrors `Pro2.chunksCharGo` but records which lines went into each chunk
instead of the joined buffer. -/
def charGroupsGo (max_chars : Nat) :
    List (List Char) → List (List Char) → List (List (List Char))
  | [], g => if g ≠ [] then [g] else []
  | l :: ls, g =>
    let g1 := if pyStripL l ≠ [] then g ++ [l] else g
    if max_chars ≤ (spaceJoinTrail g1).length then
      g1 :: charGroupsGo max_chars ls []
    else
      charGroupsGo max_chars ls g1

/-- The character-bounded chunk groups of a page text. -/
def charGroups (text : String) (max_chars : Nat) : List (List (List Char)) :=
  charGroupsGo max_chars (splitLinesCore text.data) []

/-- The claim's notion of row identity: structurally identical across every
field — same field set, equal values (a missing field is not the same as a
null field). -/
def eqRowStrict (r1 r2 : Row) : Bool :=
  (rowColumns [r1, r2]).all (fun k =>
    match dictGet r1 k, dictGet r2 k with
    | some v, some w => beqVal v w
    | none, none => true
    | _, _ => false)

/-- Row identity after DataFrame alignment: equal in every column of the
combined field set, a missing field counting as null/NaN. -/
def eqRowTot (r1 r2 : Row) : Bool :=
  (rowColumns [r1, r2]).all (fun k => beqVal (cellVal r1 k) (cellVal r2 k))

/-- The spec's deduplication, written as stated: keep each row unless it is
a duplicate of an earlier kept row, preserving first-seen order (with
`eqRowTot` as row identity). -/
def dedup_first_seen (rows : List Row) : List Row :=
  rows.foldl (fun acc r => if acc.any (fun s => eqRowTot s r) then acc else acc ++ [r]) []

/-- Modelled from the spec (§4.4): the ordered fallback of the Output
Parser — parse the whole response as JSON; on failure parse the first
substring matching the bracketed-array-of-objects pattern; on failure or
no match return the empty sequence. -/
def parse_fallback_spec (s : String) : JsonVal :=
  match json_loads s with
  | some v => v
  | none =>
    match searchBracket s.data with
    | some m =>
      match json_loads (String.mk m) with
      | some v => v
      | none => .arr []
    | none => .arr []

/-! ## Basic lemmas about the Python string primitives -/

theorem pyStripL_length_le (cs : List Char) : (pyStripL cs).length ≤ cs.length := by
  unfold pyStripL
  calc ((cs.dropWhile pyIsSpace).reverse.dropWhile pyIsSpace).reverse.length
      = ((cs.dropWhile pyIsSpace).reverse.dropWhile pyIsSpace).length := by
        simp
    _ ≤ (cs.dropWhile pyIsSpace).reverse.length :=
        (List.dropWhile_sublist _).length_le
    _ = (cs.dropWhile pyIsSpace).length := by simp
    _ ≤ cs.length := (List.dropWhile_sublist _).length_le

theorem pyStripL_eq_nil_iff (cs : List Char) :
    pyStripL cs = [] ↔ ∀ c ∈ cs, pyIsSpace c := by
  unfold pyStripL
  rw [List.reverse_eq_nil_iff, List.dropWhile_eq_nil_iff]
  constructor
  · intro h c hc
    by_cases hmem : c ∈ cs.dropWhile pyIsSpace
    · exact h c (by simpa using hmem)
    · have hsplit := List.takeWhile_append_dropWhile (p := pyIsSpace) (l := cs)
      have hc2 : c ∈ cs.takeWhile pyIsSpace ++ cs.dropWhile pyIsSpace := by
        rw [hsplit]; exact hc
      rcases List.mem_append.mp hc2 with h1 | h2
      · exact List.mem_takeWhile_imp h1
      · exact absurd h2 hmem
  · intro h c hc
    exact h c ((List.dropWhile_sublist _).mem (by simpa using hc))

theorem pyStripL_ne_nil_of_mem {cs : List Char} {c : Char} (hc : c ∈ cs)
    (hns : pyIsSpace c = false) : pyStripL cs ≠ [] := by
  intro h
  have := (pyStripL_eq_nil_iff cs).mp h c hc
  simp [this] at hns

/-- The head of a `dropWhile` result does not satisfy the predicate. -/
theorem head_dropWhile_false {p : Char → Bool} {l : List Char} {c : Char}
    {t : List Char} (h : l.dropWhile p = c :: t) : p c = false := by
  induction l with
  | nil => simp at h
  | cons a l ih =>
    rw [List.dropWhile_cons] at h
    by_cases ha : p a
    · simp only [ha, if_true] at h; exact ih h
    · simp only [ha, if_false] at h
      injection h with h1 h2
      subst h1
      simpa using ha

/-- A non-empty stripped string still contains a non-space character, hence
strips to non-empty again (`strip` is idempotent in that respect). -/
theorem pyStripL_pyStripL_ne_nil {cs : List Char} (h : pyStripL cs ≠ []) :
    pyStripL (pyStripL cs) ≠ [] := by
  have hz : pyStripL cs = ((cs.dropWhile pyIsSpace).reverse.dropWhile pyIsSpace).reverse := rfl
  cases hzc : (cs.dropWhile pyIsSpace).reverse.dropWhile pyIsSpace with
  | nil => rw [hz, hzc] at h; simp at h
  | cons c t =>
    have hcns : pyIsSpace c = false := head_dropWhile_false hzc
    have hmem : c ∈ pyStripL cs := by rw [hz, hzc]; simp
    exact pyStripL_ne_nil_of_mem hmem hcns

/-! ## `splitlines` / join lemmas -/

theorem splitLinesCore_cons_not_term {c : Char} (rest : List Char)
    (h : isLineTerm c = false) :
    splitLinesCore (c :: rest) = consHead c (splitLinesCore rest) := by
  rw [splitLinesCore.eq_def]
  simp [h]

theorem splitLinesCore_cons_term {c : Char} (rest : List Char)
    (h1 : isLineTerm c = true) (h2 : c ≠ '\r') :
    splitLinesCore (c :: rest) = [] :: splitLinesCore rest := by
  rw [splitLinesCore.eq_def]
  simp [h1, h2]

theorem splitLinesCore_crlf (rest : List Char) :
    splitLinesCore ('\r' :: '\n' :: rest) = [] :: splitLinesCore rest := rfl

theorem splitLinesCore_cr_single {a : Char} {t : List Char} (ha : a ≠ '\n') :
    splitLinesCore ('\r' :: a :: t) = [] :: splitLinesCore (a :: t) := by
  rw [splitLinesCore.eq_def]
  simp [ha, isLineTerm]

/-- Every line produced by `splitlines` is free of line terminators. -/
theorem splitLinesCore_termFree :
    ∀ (cs : List Char), ∀ l ∈ splitLinesCore cs, ∀ c ∈ l, isLineTerm c = false := by
  intro cs
  induction cs using splitLinesCore.induct with
  | case1 => intro l hl; simp [splitLinesCore] at hl
  | case2 rest2 hterm ih =>
    intro l hl c hc
    rw [splitLinesCore_crlf] at hl
    rcases List.mem_cons.mp hl with rfl | hl
    · simp at hc
    · exact ih l hl c hc
  | case3 r hne hterm ih =>
    intro l hl c hc
    have heq : splitLinesCore ('\r' :: r) = [] :: splitLinesCore r := by
      cases r with
      | nil => rfl
      | cons a t =>
        by_cases h : a = '\n'
        · exact (hne t (by rw [h])).elim
        · exact splitLinesCore_cr_single h
    rw [heq] at hl
    rcases List.mem_cons.mp hl with rfl | hl
    · simp at hc
    · exact ih l hl c hc
  | case4 c0 rest hterm hne ih =>
    intro l hl c hc
    rw [splitLinesCore_cons_term rest hterm hne] at hl
    rcases List.mem_cons.mp hl with rfl | hl
    · simp at hc
    · exact ih l hl c hc
  | case5 c0 rest hterm ih =>
    intro l hl c hc
    have hc0 : isLineTerm c0 = false := by simpa using hterm
    rw [splitLinesCore_cons_not_term rest hc0] at hl
    cases hsp : splitLinesCore rest with
    | nil =>
      rw [hsp] at hl
      simp only [consHead, List.mem_singleton] at hl
      subst hl
      rcases List.mem_singleton.mp hc with rfl
      exact hc0
    | cons l0 ls =>
      rw [hsp] at hl
      simp only [consHead] at hl
      rcases List.mem_cons.mp hl with rfl | hl
      · rcases List.mem_cons.mp hc with rfl | hc2
        · exact hc0
        · exact ih l0 (by rw [hsp]; exact List.mem_cons_self _ _) c hc2
      · exact ih l (by rw [hsp]; exact List.mem_cons_of_mem _ hl) c hc

/-- Splitting a terminator-free prefix followed by a newline peels off one
line. -/
theorem splitLinesCore_append_nl {l : List Char} (t : List Char)
    (hl : ∀ c ∈ l, isLineTerm c = false) :
    splitLinesCore (l ++ '\n' :: t) = l :: splitLinesCore t := by
  induction l with
  | nil => rw [List.nil_append, splitLinesCore_cons_term t (by decide) (by decide)]
  | cons c l ih =>
    have hc : isLineTerm c = false := hl c (by simp)
    have hrest : ∀ x ∈ l, isLineTerm x = false := fun x h => hl x (by simp [h])
    rw [List.cons_append, splitLinesCore_cons_not_term _ hc, ih hrest]
    rfl

/-- A non-empty terminator-free text is a single line. -/
theorem splitLinesCore_eq_single {l : List Char} (hl : ∀ c ∈ l, isLineTerm c = false)
    (hne : l ≠ []) : splitLinesCore l = [l] := by
  induction l with
  | nil => simp at hne
  | cons c l ih =>
    have hc := hl c (by simp)
    rw [splitLinesCore_cons_not_term _ hc]
    by_cases h0 : l = []
    · subst h0; rfl
    · rw [ih (fun x h => hl x (by simp [h])) h0]; rfl

theorem joinNl_cons {l : List Char} {ls : List (List Char)} (h : ls ≠ []) :
    joinNl (l :: ls) = l ++ '\n' :: joinNl ls := by
  cases ls with
  | nil => simp at h
  | cons a t => rfl

/-- `splitlines` is a left inverse of `"\n".join` on non-empty lists of
non-empty terminator-free lines. -/
theorem splitLinesCore_joinNl : ∀ {ls : List (List Char)},
    (∀ l ∈ ls, (∀ c ∈ l, isLineTerm c = false) ∧ l ≠ []) → ls ≠ [] →
    splitLinesCore (joinNl ls) = ls := by
  intro ls
  induction ls with
  | nil => intro _ hne; simp at hne
  | cons l ls ih =>
    intro h hne
    by_cases h0 : ls = []
    · subst h0
      exact splitLinesCore_eq_single (h l (by simp)).1 (h l (by simp)).2
    · rw [joinNl_cons h0, splitLinesCore_append_nl _ (h l (by simp)).1,
        ih (fun x hx => h x (by simp [hx])) h0]

/-! ## Row-bounded chunker lemmas -/

/-- Elements of a kept buffer are terminator-free non-empty lines. -/
theorem bufOk_of_strip {l : List Char} (h : pyStripL l ≠ []) : l ≠ [] := by
  intro h0
  subst h0
  exact h rfl

theorem Toll.chunksRowGo_flatten :
    ∀ (ls : List (List Char)) (buf : List (List Char)) (p n : Nat),
    (∀ l ∈ ls, ∀ c ∈ l, isLineTerm c = false) →
    (∀ l ∈ buf, (∀ c ∈ l, isLineTerm c = false) ∧ pyStripL l ≠ []) →
    ((Toll.chunksRowGo p n ls buf).map (fun c => splitLinesCore c.text.data)).flatten
      = buf ++ ls.filter (fun l => pyStripL l ≠ []) := by
  intro ls
  induction ls with
  | nil =>
    intro buf p n _ hbuf
    show ((if buf ≠ [] then [⟨p, String.mk (joinNl buf)⟩] else
        ([] : List Chunk)).map (fun c => splitLinesCore c.text.data)).flatten = _
    by_cases h0 : buf = []
    · subst h0; simp
    · rw [if_pos h0]
      have hjoin : splitLinesCore (joinNl buf) = buf :=
        splitLinesCore_joinNl
          (fun l hl => ⟨(hbuf l hl).1, bufOk_of_strip (hbuf l hl).2⟩) h0
      simp [hjoin]
  | cons l ls ih =>
    intro buf p n hls hbuf
    have hlt : ∀ c ∈ l, isLineTerm c = false := hls l (by simp)
    have hls' : ∀ x ∈ ls, ∀ c ∈ x, isLineTerm c = false :=
      fun x hx => hls x (by simp [hx])
    show ((let buf1 := if pyStripL l ≠ [] then buf ++ [l] else buf
        if n ≤ buf1.length then
          ⟨p, String.mk (joinNl buf1)⟩ :: Toll.chunksRowGo p n ls []
        else Toll.chunksRowGo p n ls buf1).map
          (fun c => splitLinesCore c.text.data)).flatten = _
    by_cases hk : pyStripL l = []
    · simp only [hk, ne_eq, not_true_eq_false, if_false]
      by_cases hemit : n ≤ buf.length
      · rw [if_pos hemit]
        by_cases h0 : buf = []
        · subst h0
          simpa [hk] using ih [] p n hls' (by simp)
        · have hjoin : splitLinesCore (joinNl buf) = buf :=
            splitLinesCore_joinNl
              (fun x hx => ⟨(hbuf x hx).1, bufOk_of_strip (hbuf x hx).2⟩) h0
          simp only [List.map_cons, List.flatten_cons]
          rw [hjoin, ih [] p n hls' (by simp)]
          simp [hk]
      · rw [if_neg hemit, ih buf p n hls' hbuf]
        simp [hk]
    · simp only [hk, ne_eq, not_false_eq_true, if_true]
      have hbuf1 : ∀ x ∈ buf ++ [l],
          (∀ c ∈ x, isLineTerm c = false) ∧ pyStripL x ≠ [] := by
        intro x hx
        rcases List.mem_append.mp hx with hx | hx
        · exact hbuf x hx
        · rcases List.mem_singleton.mp hx with rfl
          exact ⟨hlt, hk⟩
      by_cases hemit : n ≤ (buf ++ [l]).length
      · rw [if_pos hemit]
        have hne : buf ++ [l] ≠ [] := by simp
        have hjoin : splitLinesCore (joinNl (buf ++ [l])) = buf ++ [l] :=
          splitLinesCore_joinNl
            (fun x hx => ⟨(hbuf1 x hx).1, bufOk_of_strip (hbuf1 x hx).2⟩) hne
        simp only [List.map_cons, List.flatten_cons]
        rw [hjoin, ih [] p n hls' (by simp)]
        simp [hk]
      · rw [if_neg hemit, ih (buf ++ [l]) p n hls' hbuf1]
        simp [hk]

theorem exists_nonspace_of_strip_ne {l : List Char} (h : pyStripL l ≠ []) :
    ∃ c ∈ l, pyIsSpace c = false := by
  by_contra hall
  push_neg at hall
  exact h ((pyStripL_eq_nil_iff l).mpr fun c hc => by
    have := hall c hc
    revert this
    cases pyIsSpace c <;> simp)

theorem mem_joinNl {c : Char} {l : List Char} :
    ∀ {ls : List (List Char)}, c ∈ l → l ∈ ls → c ∈ joinNl ls := by
  intro ls hc hl
  induction ls with
  | nil => simp at hl
  | cons l0 ls ih =>
    by_cases h0 : ls = []
    · subst h0
      rcases List.mem_singleton.mp hl with rfl
      exact hc
    · rw [joinNl_cons h0]
      rcases List.mem_cons.mp hl with rfl | hl2
      · exact List.mem_append.mpr (Or.inl hc)
      · exact List.mem_append.mpr (Or.inr (List.mem_cons_of_mem _ (ih hl2)))

theorem pyStripL_joinNl_ne {buf : List (List Char)} {l : List Char}
    (hl : l ∈ buf) (h : pyStripL l ≠ []) : pyStripL (joinNl buf) ≠ [] := by
  obtain ⟨c, hc, hns⟩ := exists_nonspace_of_strip_ne h
  exact pyStripL_ne_nil_of_mem (mem_joinNl hc hl) hns

/-- Invariant of the row-bounded chunker: while the buffer stays below the
threshold, every emitted chunk carries the page number, has at most
`max_rows` rows, and has non-blank text. -/
theorem Toll.chunksRowGo_inv :
    ∀ (ls : List (List Char)) (buf : List (List Char)) (p n : Nat),
    buf.length < n →
    (∀ l ∈ buf, (∀ c ∈ l, isLineTerm c = false) ∧ pyStripL l ≠ []) →
    (∀ l ∈ ls, ∀ c ∈ l, isLineTerm c = false) →
    ∀ c ∈ Toll.chunksRowGo p n ls buf,
      c.page = p ∧ (splitLinesCore c.text.data).length ≤ n ∧
        pyStripL c.text.data ≠ [] := by
  intro ls
  induction ls with
  | nil =>
    intro buf p n hlen hbuf _ c hc
    revert hc
    show c ∈ (if buf ≠ [] then [(⟨p, String.mk (joinNl buf)⟩ : Chunk)] else []) → _
    by_cases h0 : buf = []
    · subst h0; simp
    · rw [if_pos h0]
      intro hc
      rcases List.mem_singleton.mp hc with rfl
      have hjoin : splitLinesCore (joinNl buf) = buf :=
        splitLinesCore_joinNl
          (fun x hx => ⟨(hbuf x hx).1, bufOk_of_strip (hbuf x hx).2⟩) h0
      refine ⟨rfl, ?_, ?_⟩
      · show (splitLinesCore (joinNl buf)).length ≤ n
        rw [hjoin]; omega
      · show pyStripL (joinNl buf) ≠ []
        obtain ⟨b, hbm⟩ := List.exists_mem_of_ne_nil buf h0
        exact pyStripL_joinNl_ne hbm (hbuf b hbm).2
  | cons l ls ih =>
    intro buf p n hlen hbuf hls c hc
    have hlt : ∀ x ∈ l, isLineTerm x = false := hls l (by simp)
    have hls' : ∀ x ∈ ls, ∀ y ∈ x, isLineTerm y = false :=
      fun x hx => hls x (by simp [hx])
    revert hc
    show c ∈ (let buf1 := if pyStripL l ≠ [] then buf ++ [l] else buf
        if n ≤ buf1.length then
          (⟨p, String.mk (joinNl buf1)⟩ : Chunk) :: Toll.chunksRowGo p n ls []
        else Toll.chunksRowGo p n ls buf1) → _
    by_cases hk : pyStripL l = []
    · simp only [hk, ne_eq, not_true_eq_false, if_false]
      by_cases hemit : n ≤ buf.length
      · exact fun _ => absurd hemit (Nat.not_le.mpr hlen)
      · rw [if_neg hemit]
        exact ih buf p n hlen hbuf hls' c
    · simp only [hk, ne_eq, not_false_eq_true, if_true]
      have hbuf1 : ∀ x ∈ buf ++ [l],
          (∀ y ∈ x, isLineTerm y = false) ∧ pyStripL x ≠ [] := by
        intro x hx
        rcases List.mem_append.mp hx with hx | hx
        · exact hbuf x hx
        · rcases List.mem_singleton.mp hx with rfl
          exact ⟨hlt, hk⟩
      by_cases hemit : n ≤ (buf ++ [l]).length
      · rw [if_pos hemit]
        intro hc
        rcases List.mem_cons.mp hc with rfl | hc2
        · have hne : buf ++ [l] ≠ [] := by simp
          have hjoin : splitLinesCore (joinNl (buf ++ [l])) = buf ++ [l] :=
            splitLinesCore_joinNl
              (fun x hx => ⟨(hbuf1 x hx).1, bufOk_of_strip (hbuf1 x hx).2⟩) hne
          refine ⟨rfl, ?_, ?_⟩
          · show (splitLinesCore (joinNl (buf ++ [l]))).length ≤ n
            rw [hjoin]
            simp only [List.length_append, List.length_singleton]
            omega
          · show pyStripL (joinNl (buf ++ [l])) ≠ []
            exact pyStripL_joinNl_ne (List.mem_append.mpr (Or.inr (by simp))) hk
        · exact ih [] p n (by simp only [List.length_nil]; omega) (by simp) hls' c hc2
      · rw [if_neg hemit]
        exact ih (buf ++ [l]) p n (Nat.lt_of_not_le hemit) hbuf1 hls' c

/-! ## Character-bounded chunker lemmas -/

theorem spaceJoinTrail_append (g : List (List Char)) (l : List Char) :
    spaceJoinTrail (g ++ [l]) = spaceJoinTrail g ++ (l ++ [' ']) := by
  simp [spaceJoinTrail]

theorem pyStripL_spaceJoinTrail_ne {g : List (List Char)} {l : List Char}
    (hl : l ∈ g) (h : pyStripL l ≠ []) : pyStripL (spaceJoinTrail g) ≠ [] := by
  obtain ⟨c, hc, hns⟩ := exists_nonspace_of_strip_ne h
  apply pyStripL_ne_nil_of_mem _ hns
  unfold spaceJoinTrail
  exact List.mem_flatten.mpr
    ⟨l ++ [' '], List.mem_map.mpr ⟨l, hl, rfl⟩, List.mem_append.mpr (Or.inl hc)⟩

theorem charGroupsGo_flatten :
    ∀ (ls : List (List Char)) (g : List (List Char)) (m : Nat),
    (charGroupsGo m ls g).flatten = g ++ ls.filter (fun l => pyStripL l ≠ []) := by
  intro ls
  induction ls with
  | nil =>
    intro g m
    show (if g ≠ [] then [g] else []).flatten = g ++ List.filter _ []
    by_cases h0 : g = []
    · subst h0; simp
    · rw [if_pos h0]; simp
  | cons l ls ih =>
    intro g m
    simp only [charGroupsGo]
    by_cases hk : pyStripL l = []
    · simp only [hk, ne_eq, not_true_eq_false, if_false]
      by_cases hemit : m ≤ (spaceJoinTrail g).length
      · rw [if_pos hemit]
        simp only [List.flatten_cons, ih]
        simp [hk]
      · rw [if_neg hemit, ih]
        simp [hk]
    · simp only [hk, ne_eq, not_false_eq_true, if_true]
      by_cases hemit : m ≤ (spaceJoinTrail (g ++ [l])).length
      · rw [if_pos hemit]
        simp only [List.flatten_cons, ih]
        simp [hk]
      · rw [if_neg hemit, ih]
        simp [hk]

/-- The character-bounded chunker is the group chunker in disguise: with the
buffer holding exactly the space-joined current group, it emits exactly the
stripped space-joins of the groups. -/
theorem Pro2.chunksCharGo_eq_groups :
    ∀ (ls : List (List Char)) (g : List (List Char)) (p m : Nat),
    (∀ l ∈ g, pyStripL l ≠ []) →
    Pro2.chunksCharGo p m ls (spaceJoinTrail g)
      = (charGroupsGo m ls g).map
          (fun g2 => (⟨p, String.mk (pyStripL (spaceJoinTrail g2))⟩ : Chunk)) := by
  intro ls
  induction ls with
  | nil =>
    intro g p m hg
    show (if pyStripL (spaceJoinTrail g) ≠ [] then _ else _)
        = (if g ≠ [] then [g] else []).map _
    by_cases h0 : g = []
    · subst h0
      have h1 : pyStripL (spaceJoinTrail []) = [] := rfl
      simp [h1]
    · rw [if_pos h0]
      obtain ⟨b, hbm⟩ := List.exists_mem_of_ne_nil g h0
      rw [if_pos (pyStripL_spaceJoinTrail_ne hbm (hg b hbm))]
      simp
  | cons l ls ih =>
    intro g p m hg
    simp only [Pro2.chunksCharGo, charGroupsGo]
    by_cases hk : pyStripL l = []
    · simp only [hk, ne_eq, not_true_eq_false, if_false]
      by_cases hemit : m ≤ (spaceJoinTrail g).length
      · rw [if_pos hemit, if_pos hemit]
        simp only [List.map_cons]
        congr 1
        exact ih [] p m (by simp)
      · rw [if_neg hemit, if_neg hemit]
        exact ih g p m hg
    · simp only [hk, ne_eq, not_false_eq_true, if_true]
      have hbg : spaceJoinTrail g ++ l ++ [' '] = spaceJoinTrail (g ++ [l]) := by
        rw [spaceJoinTrail_append, List.append_assoc]
      rw [hbg]
      have hg1 : ∀ x ∈ g ++ [l], pyStripL x ≠ [] := by
        intro x hx
        rcases List.mem_append.mp hx with hx | hx
        · exact hg x hx
        · rcases List.mem_singleton.mp hx with rfl
          exact hk
      by_cases hemit : m ≤ (spaceJoinTrail (g ++ [l])).length
      · rw [if_pos hemit, if_pos hemit]
        simp only [List.map_cons]
        congr 1
        exact ih [] p m (by simp)
      · rw [if_neg hemit, if_neg hemit]
        exact ih (g ++ [l]) p m hg1

theorem pyStripL_append_right_ne {buf l : List Char} (h : pyStripL l ≠ []) :
    ∀ (t : List Char), pyStripL (buf ++ l ++ t) ≠ [] := by
  intro t
  obtain ⟨c, hc, hns⟩ := exists_nonspace_of_strip_ne h
  exact pyStripL_ne_nil_of_mem (by simp [hc]) hns

/-- Invariant of the character-bounded chunker: while the buffer stays below
the threshold, every emitted chunk carries the page number, is at most
`max_chars` plus one line (and separator) long, and has non-blank text. -/
theorem Pro2.chunksCharGo_inv :
    ∀ (ls : List (List Char)) (buf : List Char) (p m M : Nat),
    buf.length < m →
    (buf = [] ∨ pyStripL buf ≠ []) →
    (∀ l ∈ ls, l.length ≤ M) →
    ∀ c ∈ Pro2.chunksCharGo p m ls buf,
      c.page = p ∧ c.text.data.length ≤ m + M ∧ pyStripL c.text.data ≠ [] := by
  intro ls
  induction ls with
  | nil =>
    intro buf p m M hlen hbuf _ c hc
    revert hc
    show c ∈ (if pyStripL buf ≠ [] then
        [(⟨p, String.mk (pyStripL buf)⟩ : Chunk)] else []) → _
    by_cases h0 : pyStripL buf = []
    · simp [h0]
    · rw [if_pos h0]
      intro hc
      rcases List.mem_singleton.mp hc with rfl
      refine ⟨rfl, ?_, ?_⟩
      · show (pyStripL buf).length ≤ m + M
        have := pyStripL_length_le buf
        omega
      · show pyStripL (pyStripL buf) ≠ []
        exact pyStripL_pyStripL_ne_nil h0
  | cons l ls ih =>
    intro buf p m M hlen hbuf hls c
    have hlM : l.length ≤ M := hls l (by simp)
    have hls' : ∀ x ∈ ls, x.length ≤ M := fun x hx => hls x (by simp [hx])
    show c ∈ (let buf1 := if pyStripL l ≠ [] then buf ++ l ++ [' '] else buf
        if m ≤ buf1.length then
          (⟨p, String.mk (pyStripL buf1)⟩ : Chunk) :: Pro2.chunksCharGo p m ls []
        else Pro2.chunksCharGo p m ls buf1) → _
    by_cases hk : pyStripL l = []
    · simp only [hk, ne_eq, not_true_eq_false, if_false]
      by_cases hemit : m ≤ buf.length
      · exact fun _ => absurd hemit (Nat.not_le.mpr hlen)
      · rw [if_neg hemit]
        exact ih buf p m M hlen hbuf hls' c
    · simp only [hk, ne_eq, not_false_eq_true, if_true]
      have hb1 : pyStripL (buf ++ l ++ [' ']) ≠ [] := by
        have := @pyStripL_append_right_ne buf _ hk [' ']
        simpa [List.append_assoc] using this
      by_cases hemit : m ≤ (buf ++ l ++ [' ']).length
      · rw [if_pos hemit]
        intro hc
        rcases List.mem_cons.mp hc with rfl | hc2
        · refine ⟨rfl, ?_, ?_⟩
          · show (pyStripL (buf ++ l ++ [' '])).length ≤ m + M
            have h1 := pyStripL_length_le (buf ++ l ++ [' '])
            have h2 : (buf ++ l ++ [' ']).length = buf.length + l.length + 1 := by
              simp
              omega
            omega
          · show pyStripL (pyStripL (buf ++ l ++ [' '])) ≠ []
            exact pyStripL_pyStripL_ne_nil hb1
        · exact ih [] p m M (by simp only [List.length_nil]; omega)
            (Or.inl rfl) hls' c hc2
      · rw [if_neg hemit]
        exact ih (buf ++ l ++ [' ']) p m M (Nat.lt_of_not_le hemit)
          (Or.inr hb1) hls' c

theorem le_foldr_max {x : Nat} : ∀ {xs : List Nat}, x ∈ xs → x ≤ xs.foldr max 0 := by
  intro xs hx
  induction xs with
  | nil => simp at hx
  | cons a t ih =>
    rcases List.mem_cons.mp hx with rfl | hx2
    · exact Nat.le_max_left _ _
    · exact Nat.le_trans (ih hx2) (Nat.le_max_right _ _)

theorem pyStripL_replicate_x_space (n : Nat) :
    pyStripL (List.replicate (n + 1) 'x' ++ [' ']) = List.replicate (n + 1) 'x' := by
  unfold pyStripL
  have h1 : List.dropWhile pyIsSpace (List.replicate (n + 1) 'x' ++ [' '])
      = List.replicate (n + 1) 'x' ++ [' '] := by
    rw [List.replicate_succ, List.cons_append, List.dropWhile_cons_of_neg (by decide)]
  rw [h1, List.reverse_append]
  show (List.dropWhile pyIsSpace
      (' ' :: (List.replicate (n + 1) 'x').reverse)).reverse = _
  rw [List.dropWhile_cons_of_pos (by decide), List.reverse_replicate,
    List.replicate_succ, List.dropWhile_cons_of_neg (by decide),
    show 'x' :: List.replicate n 'x' = List.replicate (n + 1) 'x' from rfl,
    List.reverse_replicate]

/-! ## Claim C1 — chunk size bounds -/

/-- C1, counterexample: the claim says every chunk's size measure is at most
the configured threshold (2000 characters under the character-bounded
policy), the final chunk included ("may be smaller but never larger").  But
on a page consisting of one 2001-character line, `build_chunks` of
`src/pro2.py` with its configured threshold 2000 emits a single chunk of
2001 characters, exceeding the threshold. -/
theorem C1_counterexample :
    (Pro2.build_chunks (String.mk (List.replicate 2001 'x')) 1 2000).map
        (fun c => c.text.length) = [2001] ∧ ¬ (2001 ≤ 2000) := by
  constructor
  · have hne : List.replicate 2001 'x' ≠ [] := by
      intro h
      have h2 := congrArg List.length h
      rw [List.length_replicate] at h2
      simp at h2
    show (Pro2.chunksCharGo 1 2000 (splitLinesCore (List.replicate 2001 'x')) []).map
        (fun c => c.text.length) = [2001]
    rw [splitLinesCore_eq_single
      (fun c hc => by rw [List.eq_of_mem_replicate hc]; rfl) hne]
    have hkeep : pyStripL (List.replicate 2001 'x') ≠ [] :=
      pyStripL_ne_nil_of_mem (List.mem_replicate.mpr ⟨by decide, rfl⟩) (by decide)
    simp only [Pro2.chunksCharGo, hkeep, ne_eq, not_false_eq_true, if_true,
      List.nil_append]
    rw [if_pos (by
      simp only [List.length_append, List.length_replicate, List.length_singleton]
      decide)]
    have hstrip : pyStripL (List.replicate 2001 'x' ++ [' '])
        = List.replicate 2001 'x' := by
      have h3 := pyStripL_replicate_x_space 2000
      norm_num at h3 ⊢
      exact h3
    rw [hstrip, if_neg (by simp [pyStripL])]
    simp only [List.map_cons, List.map_nil]
    show [(List.replicate 2001 'x').length] = [2001]
    rw [List.length_replicate]
  · decide

/-- C1, amended: under the row-bounded policy every chunk has at most
`max_rows` rows, as claimed.  Under the character-bounded policy the
threshold can be exceeded: what holds is that every chunk is at most
`max_chars` plus the page's longest line length (the line that triggered
the flush was appended before the threshold check). -/
theorem C1_amended_chunk_bounds :
    (∀ (text : String) (p n : Nat), 1 ≤ n →
      ∀ c ∈ Toll.build_chunks text p n,
        (splitLinesCore c.text.data).length ≤ n) ∧
    (∀ (text : String) (p m : Nat), 1 ≤ m →
      ∀ c ∈ Pro2.build_chunks text p m,
        c.text.length ≤ m + maxLineLen text) := by
  constructor
  · intro text p n hn c hc
    exact (Toll.chunksRowGo_inv (splitLinesCore text.data) [] p n
      (by simp only [List.length_nil]; omega) (by simp)
      (splitLinesCore_termFree text.data) c hc).2.1
  · intro text p m hm c hc
    exact (Pro2.chunksCharGo_inv (splitLinesCore text.data) [] p m (maxLineLen text)
      (by simp only [List.length_nil]; omega) (Or.inl rfl)
      (fun l hl => le_foldr_max (List.mem_map.mpr ⟨l, hl, rfl⟩)) c hc).2.1

/-- Witness for `C1_amended_chunk_bounds` at a concrete page. -/
theorem C1_witness :
    (1 ≤ 30 ∧ (⟨1, "hi"⟩ : Chunk) ∈ Toll.build_chunks "hi" 1 30 ∧
      (splitLinesCore (Chunk.text ⟨1, "hi"⟩).data).length ≤ 30) ∧
    (1 ≤ 2000 ∧ (⟨1, "hi"⟩ : Chunk) ∈ Pro2.build_chunks "hi" 1 2000 ∧
      (Chunk.text ⟨1, "hi"⟩).length ≤ 2000 + maxLineLen "hi") :=
  ⟨⟨by decide, by decide,
    C1_amended_chunk_bounds.1 "hi" 1 30 (by decide) ⟨1, "hi"⟩ (by decide)⟩,
   ⟨by decide, by decide,
    C1_amended_chunk_bounds.2 "hi" 1 2000 (by decide) ⟨1, "hi"⟩ (by decide)⟩⟩

/-! ## Claim C8 — line-order preservation -/

/-- C8, counterexample: under the character-bounded policy, concatenating
the chunks of the two-line page `"a\nb"` does not yield the page's non-blank
lines: the only chunk is `"a b"` — the line boundary was replaced by a
space, so the line sequence `["a", "b"]` is not recoverable. -/
theorem C8_counterexample :
    ((Pro2.build_chunks "a\nb" 1 2000).map (fun c => pySplitLines c.text)).flatten
        ≠ (pySplitLines "a\nb").filter (fun l => pyStrip l ≠ "") ∧
      (Pro2.build_chunks "a\nb" 1 2000).map (fun c => c.text) = ["a b"] ∧
      (pySplitLines "a\nb").filter (fun l => pyStrip l ≠ "") = ["a", "b"] := by
  refine ⟨by decide, by decide, by decide⟩

/-- C8, amended: under the row-bounded policy the claim holds exactly —
splitting the chunks back into lines and concatenating yields precisely the
page's non-blank lines in order.  Under the character-bounded policy, the
chunks are the trimmed space-joins of an ordered partition (`charGroups`)
of the non-blank lines: no line is lost, duplicated or reordered, but line
boundaries inside a chunk become spaces and chunk-edge whitespace is
trimmed. -/
theorem C8_amended_line_preservation :
    (∀ (text : String) (p n : Nat),
      ((Toll.build_chunks text p n).map (fun c => splitLinesCore c.text.data)).flatten
        = nonBlankLinesCore text.data) ∧
    (∀ (text : String) (p m : Nat),
      Pro2.build_chunks text p m
          = (charGroups text m).map
              (fun g => ⟨p, String.mk (pyStripL (spaceJoinTrail g))⟩) ∧
        (charGroups text m).flatten = nonBlankLinesCore text.data) := by
  constructor
  · intro text p n
    have h := Toll.chunksRowGo_flatten (splitLinesCore text.data) [] p n
      (splitLinesCore_termFree text.data) (by simp)
    simpa [nonBlankLinesCore] using h
  · intro text p m
    constructor
    · exact Pro2.chunksCharGo_eq_groups (splitLinesCore text.data) [] p m (by simp)
    · have h := charGroupsGo_flatten (splitLinesCore text.data) [] m
      simpa [nonBlankLinesCore, charGroups] using h

/-! ## Claim C10 — chunk well-formedness invariants -/

/-- C10: with the configured thresholds, every chunk either chunker emits
carries the page number it was called with and has non-empty text containing
at least one non-blank character. -/
theorem C10_chunk_invariants :
    (∀ (text : String) (p : Nat), ∀ c ∈ Pro2.build_chunks text p,
      c.page = p ∧ c.text ≠ "" ∧ pyStrip c.text ≠ "") ∧
    (∀ (text : String) (p : Nat), ∀ c ∈ Toll.build_chunks text p,
      c.page = p ∧ c.text ≠ "" ∧ pyStrip c.text ≠ "") := by
  constructor
  · intro text p c hc
    have h := Pro2.chunksCharGo_inv (splitLinesCore text.data) [] p 2000
      (maxLineLen text) (by simp only [List.length_nil]; omega) (Or.inl rfl)
      (fun l hl => le_foldr_max (List.mem_map.mpr ⟨l, hl, rfl⟩)) c hc
    refine ⟨h.1, ?_, ?_⟩
    · intro h0
      exact h.2.2 (by rw [congrArg String.data h0]; rfl)
    · intro h0
      exact h.2.2 (congrArg String.data h0)
  · intro text p c hc
    have h := Toll.chunksRowGo_inv (splitLinesCore text.data) [] p 30
      (by simp only [List.length_nil]; omega) (by simp)
      (splitLinesCore_termFree text.data) c hc
    refine ⟨h.1, ?_, ?_⟩
    · intro h0
      exact h.2.2 (by rw [congrArg String.data h0]; rfl)
    · intro h0
      exact h.2.2 (congrArg String.data h0)

/-- Witness for `C10_chunk_invariants` at a concrete page. -/
theorem C10_witness :
    ((⟨1, "hi"⟩ : Chunk) ∈ Pro2.build_chunks "hi" 1 ∧
      ((⟨1, "hi"⟩ : Chunk).page = 1 ∧ (⟨1, "hi"⟩ : Chunk).text ≠ "" ∧
        pyStrip (⟨1, "hi"⟩ : Chunk).text ≠ "")) ∧
    ((⟨1, "hi"⟩ : Chunk) ∈ Toll.build_chunks "hi" 1 ∧
      ((⟨1, "hi"⟩ : Chunk).page = 1 ∧ (⟨1, "hi"⟩ : Chunk).text ≠ "" ∧
        pyStrip (⟨1, "hi"⟩ : Chunk).text ≠ "")) :=
  ⟨⟨by decide, C10_chunk_invariants.1 "hi" 1 ⟨1, "hi"⟩ (by decide)⟩,
   ⟨by decide, C10_chunk_invariants.2 "hi" 1 ⟨1, "hi"⟩ (by decide)⟩⟩

/-! ## Claim C3 — parser tolerance -/

/-- C3: `safe_json_parse` is total (a Lean function — the Python bare
`except` clauses absorb every parse error) and equals the spec's ordered
fallback: whole-text parse first, then the first bracketed-array-of-objects
substring, then the empty sequence; and it maps the four example inputs of
the spec to the stated results. -/
theorem C3_parser_tolerance :
    (∀ s : String, safe_json_parse s = parse_fallback_spec s) ∧
    safe_json_parse "not json at all" = .arr [] ∧
    safe_json_parse "[\x7b\"a\":1\x7d]" = .arr [.obj [("a", .num 1)]] ∧
    safe_json_parse "Here is your data:\n[\x7b\"a\":1\x7d,\x7b\"b\":2\x7d]\nThanks!"
      = .arr [.obj [("a", .num 1)], .obj [("b", .num 2)]] ∧
    safe_json_parse "[\x7b\"a\": \x7d]" = .arr [] := by
  refine ⟨?_, rfl, rfl, rfl, rfl⟩
  intro s
  unfold safe_json_parse parse_fallback_spec
  cases json_loads s with
  | some v => rfl
  | none =>
    cases searchBracket s.data with
    | none => rfl
    | some m => cases h : json_loads (String.mk m) <;> simp [h]

/-! ## Claim C7 — parser return shape -/

/-- C7: the claim (and the source's own `-> List[Dict]` annotation) says the
parser always returns a sequence of row mappings, but `safe_json_parse`
returns whatever `json.loads` produced when the whole input is valid JSON:
the input `"5"` yields the bare number 5 and a single-object input yields
the bare object, not a list — the pipeline's subsequent `for r in rows`
then raises `TypeError`. -/
theorem C7_nonlist_return :
    safe_json_parse "5" = .num 5 ∧
    safe_json_parse "\x7b\"a\":1\x7d" = .obj [("a", .num 1)] ∧
    ∀ xs : List JsonVal, JsonVal.num 5 ≠ JsonVal.arr xs := by
  refine ⟨rfl, rfl, ?_⟩
  intro xs h
  exact JsonVal.noConfusion h

/-! ## Dict operation lemmas -/

theorem dictGet_cons (k2 : String) (v2 : JsonVal) (r : Row) (k : String) :
    dictGet ((k2, v2) :: r) k = if k2 = k then some v2 else dictGet r k := by
  unfold dictGet
  rw [List.find?_cons]
  by_cases h : k2 = k <;> simp [h]

theorem dictHasKey_cons (k2 : String) (v2 : JsonVal) (r : Row) (k : String) :
    dictHasKey ((k2, v2) :: r) k = (decide (k2 = k) || dictHasKey r k) := by
  simp [dictHasKey]

theorem dictGet_eq_none_of_not_has {r : Row} {k : String}
    (h : dictHasKey r k = false) : dictGet r k = none := by
  induction r with
  | nil => rfl
  | cons kv r ih =>
    obtain ⟨k2, v2⟩ := kv
    rw [dictHasKey_cons] at h
    rcases Bool.or_eq_false_iff.mp h with ⟨h1, h2⟩
    rw [dictGet_cons, if_neg (by simpa using h1)]
    exact ih h2

theorem dictGet_isSome_of_has {r : Row} {k : String}
    (h : dictHasKey r k = true) : ∃ v, dictGet r k = some v := by
  induction r with
  | nil => simp [dictHasKey] at h
  | cons kv r ih =>
    obtain ⟨k2, v2⟩ := kv
    rw [dictHasKey_cons] at h
    by_cases h1 : k2 = k
    · exact ⟨v2, by rw [dictGet_cons, if_pos h1]⟩
    · rw [dictGet_cons, if_neg h1]
      rcases Bool.or_eq_true_iff.mp h with h2 | h2
      · exact absurd (of_decide_eq_true h2) h1
      · exact ih h2

theorem dictGet_append (r l : Row) (k : String) :
    dictGet (r ++ l) k =
      match dictGet r k with
      | some v => some v
      | none => dictGet l k := by
  induction r with
  | nil => rfl
  | cons kv r ih =>
    obtain ⟨k2, v2⟩ := kv
    rw [List.cons_append, dictGet_cons, dictGet_cons]
    by_cases h : k2 = k
    · simp [h]
    · simp [h, ih]

theorem dictGet_setdefault_same (r : Row) (k : String) (v : JsonVal) :
    dictGet (setdefault r k v) k = some ((dictGet r k).getD v) := by
  unfold setdefault
  by_cases h : dictHasKey r k
  · rw [if_pos h]
    obtain ⟨w, hw⟩ := dictGet_isSome_of_has h
    rw [hw]
    rfl
  · rw [if_neg h]
    have hn := dictGet_eq_none_of_not_has (r := r) (k := k) (by simpa using h)
    rw [dictGet_append, hn]
    simp [dictGet_cons]

theorem dictGet_setdefault_other (r : Row) (k k' : String) (v : JsonVal)
    (h : k' ≠ k) : dictGet (setdefault r k v) k' = dictGet r k' := by
  unfold setdefault
  by_cases hh : dictHasKey r k
  · rw [if_pos hh]
  · rw [if_neg hh, dictGet_append]
    cases hr : dictGet r k' with
    | some w => rfl
    | none =>
      simp only [dictGet_cons]
      rw [if_neg (fun hc => h (Eq.symm hc))]
      rfl

theorem dictGet_dictSet_same (r : Row) (k : String) (v : JsonVal) :
    dictGet (dictSet r k v) k = some v := by
  unfold dictSet
  by_cases h : dictHasKey r k
  · rw [if_pos h]
    induction r with
    | nil => simp [dictHasKey] at h
    | cons kv r ih =>
      obtain ⟨k2, v2⟩ := kv
      rw [dictHasKey_cons] at h
      simp only [List.map_cons]
      by_cases h2 : k2 = k
      · simp only [h2, if_true]
        rw [dictGet_cons, if_pos rfl]
      · simp only [h2, if_false]
        rw [dictGet_cons, if_neg h2]
        rcases Bool.or_eq_true_iff.mp h with h3 | h3
        · exact absurd (of_decide_eq_true h3) h2
        · exact ih h3
  · rw [if_neg h, dictGet_append,
      dictGet_eq_none_of_not_has (r := r) (k := k) (by simpa using h)]
    simp [dictGet_cons]

/-! ## Claim C2 — annotation defaults -/

/-- C2, counterexample: the claim says both variants assign the
document-level default only to rows missing the field.  But the procurement
variant (`src/pro2.py` line 180) assigns `r["source_url"] = SOURCE_URL`
unconditionally: a row that already carries `source_url` has it
overwritten. -/
theorem C2_counterexample :
    Pro2.annotate_rows [[("source_url", .str "https://example.com/original")]]
      = [[("source_url", .str Pro2.SOURCE_URL)]] ∧
    JsonVal.str "https://example.com/original" ≠ JsonVal.str Pro2.SOURCE_URL := by
  constructor
  · rfl
  · intro h
    injection h with h2
    exact absurd h2 (by decide)

/-- C2, amended: the financial variant fills `source_url`, `agency` and
`asset_type` via `setdefault`, keeping any value the model supplied and
inserting the configured default only when the field is absent; the
procurement variant instead overwrites `source_url` with the configured URL
on every row. -/
theorem C2_amended_annotation :
    (∀ rows : List Row,
      (Toll.annotate_rows rows).map (fun r => dictGet r "source_url")
        = rows.map (fun r =>
            some ((dictGet r "source_url").getD (.str Toll.SOURCE_URL))) ∧
      (Toll.annotate_rows rows).map (fun r => dictGet r "agency")
        = rows.map (fun r =>
            some ((dictGet r "agency").getD (.str Toll.AGENCY))) ∧
      (Toll.annotate_rows rows).map (fun r => dictGet r "asset_type")
        = rows.map (fun r =>
            some ((dictGet r "asset_type").getD (.str Toll.ASSET_TYPE)))) ∧
    (∀ rows : List Row,
      (Pro2.annotate_rows rows).map (fun r => dictGet r "source_url")
        = rows.map (fun _ => some (.str Pro2.SOURCE_URL))) := by
  constructor
  · intro rows
    refine ⟨?_, ?_, ?_⟩ <;>
      · unfold Toll.annotate_rows
        rw [List.map_map]
        apply List.map_congr_left
        intro r _
        simp only [Function.comp]
        first
        | rw [dictGet_setdefault_same,
            dictGet_setdefault_other _ _ _ _ (by decide),
            dictGet_setdefault_other _ _ _ _ (by decide)]
        | rw [dictGet_setdefault_other _ _ _ _ (by decide),
            dictGet_setdefault_same,
            dictGet_setdefault_other _ _ _ _ (by decide)]
        | rw [dictGet_setdefault_other _ _ _ _ (by decide),
            dictGet_setdefault_other _ _ _ _ (by decide),
            dictGet_setdefault_same]
  · intro rows
    unfold Pro2.annotate_rows
    rw [List.map_map]
    apply List.map_congr_left
    intro r _
    simp only [Function.comp]
    exact dictGet_dictSet_same r "source_url" (.str Pro2.SOURCE_URL)

/-! ## Claim C4 — OCR fallback condition -/

/-- C4, counterexample: the claim says OCR runs if and only if the page's
native/table text is absent or its stripped length is below 50.  In the
financial variant, a page whose `extract_tables()` is non-empty is never
OCRed — here a page with one one-cell table, no native text, and a table
serialization of stripped length 3 (far below 50) skips OCR. -/
theorem C4_counterexample :
    (Toll.acquire_text ⟨none, [[[some "a"]]], "ocr text"⟩).2 = false ∧
    Page.nativeText ⟨none, [[[some "a"]]], "ocr text"⟩ = none ∧
    (pyStrip (Toll.acquire_text ⟨none, [[[some "a"]]], "ocr text"⟩).1).length < 50 := by
  refine ⟨rfl, rfl, by decide⟩

/-- C4, amended: in the procurement variant, OCR is invoked iff the native
text is absent or its stripped length is below 50 (an empty native string
also strips to length 0, so Python's separate falsy check changes nothing).
In the financial variant the same condition applies only to pages with no
extracted tables: a page with tables is never OCRed, whatever the length of
its serialized table text. -/
theorem C4_amended_ocr_condition :
    (∀ pg : Page, (Pro2.acquire_text pg).2 = true ↔
      (pg.nativeText = none ∨ (pyStrip (pg.nativeText.getD "")).length < 50)) ∧
    (∀ pg : Page, (Toll.acquire_text pg).2 = true ↔
      (pg.tables = [] ∧
        (pg.nativeText = none ∨ (pyStrip (pg.nativeText.getD "")).length < 50))) := by
  have key : ∀ t : Option String, nativeTooShort t = true ↔
      (t = none ∨ (pyStrip (t.getD "")).length < 50) := by
    intro t
    cases t with
    | none => simp [nativeTooShort]
    | some s =>
      simp only [nativeTooShort, Option.getD_some]
      constructor
      · intro h
        rcases Bool.or_eq_true_iff.mp h with h1 | h1
        · right
          have hs : s = "" := by simpa using h1
          subst hs
          show (pyStrip "").length < 50
          decide
        · right
          exact of_decide_eq_true h1
      · intro h
        rcases h with h | h
        · exact Option.noConfusion h
        · exact Bool.or_eq_true_iff.mpr (Or.inr (decide_eq_true h))
  constructor
  · intro pg
    unfold Pro2.acquire_text
    by_cases h : nativeTooShort pg.nativeText
    · rw [if_pos h]
      exact iff_of_true rfl ((key pg.nativeText).mp h)
    · rw [if_neg h]
      exact iff_of_false (by simp)
        (fun hr => h ((key pg.nativeText).mpr hr))
  · intro pg
    unfold Toll.acquire_text
    by_cases ht : pg.tables = []
    · rw [if_neg (not_not_intro ht)]
      by_cases h : nativeTooShort pg.nativeText
      · rw [if_pos h]
        exact iff_of_true rfl ⟨ht, (key pg.nativeText).mp h⟩
      · rw [if_neg h]
        exact iff_of_false (by simp)
          (fun hr => h ((key pg.nativeText).mpr hr.2))
    · rw [if_pos ht]
      exact iff_of_false (by simp) (fun hr => ht hr.1)

/-! ## Claim C5 — page iteration bounds -/

theorem chain'_lt_range' : ∀ (n s : Nat), List.Chain' (· < ·) (List.range' s n) := by
  intro n
  induction n with
  | zero => intro s; simp
  | succ n ih =>
    intro s
    rw [List.range'_succ]
    cases n with
    | zero => simp
    | succ n2 =>
      rw [List.range'_succ]
      exact List.chain'_cons.mpr ⟨by omega, by rw [← List.range'_succ]; exact ih (s + 1)⟩

theorem map_sub_one_range' : ∀ (n s : Nat), 1 ≤ s →
    (List.range' s n).map (fun i => i - 1) = List.range' (s - 1) n := by
  intro n
  induction n with
  | zero => intro s _; rfl
  | succ n ih =>
    intro s hs
    rw [List.range'_succ, List.range'_succ, List.map_cons, ih (s + 1) (by omega),
      show s + 1 - 1 = s - 1 + 1 by omega]

/-- C5, counterexample: the claim says the driver never accesses a page
index beyond the document's true page count.  The procurement variant
iterates `range(START_PAGE, END_PAGE + 1)` unconditionally
(`src/pro2.py` line 164) — for a 1-page document it still accesses 0-based
index 24 (`pdf.pages[24]`), which is out of range (a Python `IndexError`). -/
theorem C5_counterexample :
    24 ∈ Pro2.page_indices Pro2.START_PAGE Pro2.END_PAGE ∧ ¬ (24 < 1) := by
  refine ⟨by decide, by decide⟩

/-- C5, amended: the financial variant clamps the loop to
`min(end_page, total_pages)` and (for a 1-based start page) never accesses
an index at or beyond the page count, processing pages in strictly
ascending order; the procurement variant also ascends strictly but iterates
its configured range with no clamp, so a document shorter than `END_PAGE`
is over-indexed. -/
theorem C5_amended_page_range :
    (∀ s e t : Nat, 1 ≤ s → ∀ i ∈ Toll.page_indices s e t, i < t) ∧
    (∀ s e t : Nat, 1 ≤ s → List.Chain' (· < ·) (Toll.page_indices s e t)) ∧
    (∀ s e : Nat, 1 ≤ s → List.Chain' (· < ·) (Pro2.page_indices s e)) := by
  refine ⟨?_, ?_, ?_⟩
  · intro s e t hs i hi
    simp only [Toll.page_indices] at hi
    obtain ⟨j, hj, rfl⟩ := List.mem_map.mp hi
    have hj2 := List.mem_range'_1.mp hj
    by_cases he : e = 0
    · simp only [he, if_pos rfl] at hj2
      omega
    · rw [if_neg he] at hj2
      omega
  · intro s e t hs
    simp only [Toll.page_indices]
    rw [map_sub_one_range' _ _ hs]
    exact chain'_lt_range' _ _
  · intro s e hs
    simp only [Pro2.page_indices]
    rw [map_sub_one_range' _ _ hs]
    exact chain'_lt_range' _ _

/-- Witness for `C5_amended_page_range` at the configured values and a
2-page document. -/
theorem C5_witness :
    (1 ≤ 1 ∧ 1 ∈ Toll.page_indices 1 3 2 ∧ 1 < 2) ∧
    List.Chain' (· < ·) (Toll.page_indices 1 3 2) ∧
    List.Chain' (· < ·) (Pro2.page_indices 1 25) :=
  ⟨⟨by decide, by decide,
    C5_amended_page_range.1 1 3 2 (by decide) 1 (by decide)⟩,
   C5_amended_page_range.2.1 1 3 2 (by decide),
   C5_amended_page_range.2.2 1 25 (by decide)⟩

/-! ## Claim C6 — list-field coercion -/

theorem dictGet_map_coerce (r : Row) (k : String) :
    dictGet (r.map (fun kv => (kv.1, coerceVal kv.2))) k
      = (dictGet r k).map coerceVal := by
  induction r with
  | nil => rfl
  | cons kv r ih =>
    obtain ⟨k2, v2⟩ := kv
    simp only [List.map_cons]
    rw [dictGet_cons, dictGet_cons]
    by_cases h : k2 = k
    · simp [h]
    · simp [h, ih]

/-- C6, counterexample: the claim says both variants coerce list-valued
fields to comma-joined strings before deduplication and persistence.  The
financial variant's `save_output` has no normalization step: a row with a
list-valued field reaches `drop_duplicates` unchanged, where the unhashable
list raises `TypeError` — nothing is coerced and nothing is persisted. -/
theorem C6_counterexample :
    Toll.save_output_rows [[("f", .arr [.str "x", .str "y"])]]
      = .error "TypeError: unhashable type" ∧
    Toll.save_output_rows [[("f", .arr [.str "x", .str "y"])]]
      ≠ .ok [[("f", .str "x, y")]] := by
  refine ⟨rfl, ?_⟩
  intro h
  rw [show Toll.save_output_rows [[("f", .arr [.str "x", .str "y"])]]
      = .error "TypeError: unhashable type" from rfl] at h
  exact Except.noConfusion h

/-- C6, amended: only the procurement variant normalizes rows before
deduplication: `normalize_rows` replaces every list-valued field by the
comma-join of its elements' `str()` forms (`["x","y"]` becomes `"x, y"`)
and leaves scalar fields unchanged; the financial variant performs no
coercion at all. -/
theorem C6_amended_list_coercion :
    (∀ (rows : List Row) (k : String),
      (normalize_rows rows).map (fun r => dictGet r k)
        = rows.map (fun r => (dictGet r k).map coerceVal)) ∧
    (coerceVal (.arr [.str "x", .str "y"]) = .str "x, y" ∧
      (∀ b : Bool, coerceVal (.bool b) = .bool b) ∧
      (∀ n : Int, coerceVal (.num n) = .num n) ∧
      (∀ s : String, coerceVal (.str s) = .str s) ∧
      coerceVal .null = .null) ∧
    Pro2.save_output_rows [[("f", .arr [.str "x", .str "y"]), ("g", .str "s")]]
      = .ok [[("f", .str "x, y"), ("g", .str "s")]] := by
  refine ⟨?_, ⟨rfl, fun b => rfl, fun n => rfl, fun s => rfl, rfl⟩, rfl⟩
  intro rows k
  unfold normalize_rows
  rw [List.map_map]
  apply List.map_congr_left
  intro r _
  simp only [Function.comp]
  exact dictGet_map_coerce r k

/-! ## Claim C9 — deduplication semantics

The bridge between pandas' vectorized duplicate mask (over the aligned
column union) and row-level structural equality with missing ≡ null. -/

theorem bool_eq_of_iff {a b : Bool} (h : a = true ↔ b = true) : a = b := by
  cases a <;> cases b <;> simp_all

theorem beqVal_scalar_iff {v w : JsonVal} (hv : hashableVal v = true)
    (hw : hashableVal w = true) : beqVal v w = true ↔ v = w := by
  cases v <;> cases w <;> simp_all [beqVal, hashableVal]

theorem beqValList_scalar_iff :
    ∀ {xs ys : List JsonVal}, (∀ v ∈ xs, hashableVal v = true) →
    (∀ v ∈ ys, hashableVal v = true) → (beqValList xs ys = true ↔ xs = ys) := by
  intro xs
  induction xs with
  | nil =>
    intro ys _ _
    cases ys <;> simp [beqValList]
  | cons x xs ih =>
    intro ys hx hy
    cases ys with
    | nil => simp [beqValList]
    | cons y ys =>
      rw [show beqValList (x :: xs) (y :: ys) = (beqVal x y && beqValList xs ys)
        from rfl]
      rw [Bool.and_eq_true]
      rw [beqVal_scalar_iff (hx x (by simp)) (hy y (by simp)),
        ih (fun v hv => hx v (by simp [hv])) (fun v hv => hy v (by simp [hv]))]
      simp

/-- A row is hashable when all its field values are. -/
theorem rowHashable_of_mem {rows : List Row} {r : Row}
    (hall : allHashable rows = true) (hr : r ∈ rows) :
    r.all (fun kv => hashableVal kv.2) = true := by
  unfold allHashable at hall
  exact List.all_eq_true.mp hall r hr

theorem dictGet_some_key_mem {r : Row} {k : String} {v : JsonVal}
    (h : dictGet r k = some v) : (k, v) ∈ r := by
  unfold dictGet at h
  cases hf : r.find? (fun kv => kv.1 = k) with
  | none => rw [hf] at h; simp at h
  | some kv =>
    rw [hf] at h
    have hm := List.mem_of_find?_eq_some hf
    have hp := List.find?_some hf
    obtain ⟨k2, v2⟩ := kv
    simp at hp h
    rw [hp, h] at hm
    exact hm

theorem cellVal_hashable {r : Row} {c : String}
    (hr : r.all (fun kv => hashableVal kv.2) = true) :
    hashableVal (cellVal r c) = true := by
  unfold cellVal
  cases hg : dictGet r c with
  | none => rfl
  | some v =>
    have hv := List.all_eq_true.mp hr _ (dictGet_some_key_mem hg)
    by_cases hnan : beqVal v (.numRaw "NaN") = true
    · simp only [hnan, if_true]
      rfl
    · simp only [hnan, Bool.false_eq_true, if_false]
      exact hv

theorem cellVal_null_of_no_key {r : Row} {k : String}
    (h : ∀ v, (k, v) ∉ r) : cellVal r k = .null := by
  unfold cellVal
  cases hg : dictGet r k with
  | none => rfl
  | some v => exact absurd (dictGet_some_key_mem hg) (h v)

theorem mem_insRow_mono {k : String} :
    ∀ (r : Row) (acc : List String), k ∈ acc →
    k ∈ r.foldl (fun a kv => if a.contains kv.1 then a else a ++ [kv.1]) acc := by
  intro r
  induction r with
  | nil => intro acc h; exact h
  | cons kv r ih =>
    intro acc h
    simp only [List.foldl_cons]
    apply ih
    by_cases hc : acc.contains kv.1
    · rw [if_pos hc]; exact h
    · rw [if_neg hc]; exact List.mem_append.mpr (Or.inl h)

theorem mem_insRow_key {k : String} {v : JsonVal} :
    ∀ (r : Row) (acc : List String), (k, v) ∈ r →
    k ∈ r.foldl (fun a kv => if a.contains kv.1 then a else a ++ [kv.1]) acc := by
  intro r
  induction r with
  | nil => intro acc h; simp at h
  | cons kv2 r ih =>
    intro acc h
    obtain ⟨k2, v2⟩ := kv2
    simp only [List.foldl_cons]
    rcases List.mem_cons.mp h with heq | h2
    · injection heq with h1a h1b
      subst h1a
      subst h1b
      apply mem_insRow_mono
      by_cases hc : acc.contains k
      · rw [if_pos hc]
        exact List.elem_iff.mp hc
      · rw [if_neg hc]
        exact List.mem_append.mpr (Or.inr (by simp))
    · exact ih _ h2

theorem mem_rowsFold_mono {k : String} :
    ∀ (rows : List Row) (acc : List String), k ∈ acc →
    k ∈ rows.foldl
      (fun acc r =>
        r.foldl (fun a kv => if a.contains kv.1 then a else a ++ [kv.1]) acc) acc := by
  intro rows
  induction rows with
  | nil => intro acc h; exact h
  | cons r rows ih =>
    intro acc h
    simp only [List.foldl_cons]
    exact ih _ (mem_insRow_mono r acc h)

theorem mem_rowColumns_aux {k : String} {v : JsonVal} :
    ∀ (rows : List Row) (acc : List String) (r : Row), r ∈ rows → (k, v) ∈ r →
    k ∈ rows.foldl
      (fun acc r =>
        r.foldl (fun a kv => if a.contains kv.1 then a else a ++ [kv.1]) acc) acc := by
  intro rows
  induction rows with
  | nil => intro acc r h _; simp at h
  | cons r2 rows ih =>
    intro acc r hr hk
    simp only [List.foldl_cons]
    rcases List.mem_cons.mp hr with rfl | h2
    · exact mem_rowsFold_mono rows _ (mem_insRow_key r acc hk)
    · exact ih _ r h2 hk

theorem mem_rowColumns_of_key {rows : List Row} {r : Row} {k : String}
    {v : JsonVal} (hr : r ∈ rows) (hk : (k, v) ∈ r) : k ∈ rowColumns rows :=
  mem_rowColumns_aux rows [] r hr hk

theorem rowVec_beq_iff {cols : List String} {r s : Row}
    (hr : r.all (fun kv => hashableVal kv.2) = true)
    (hs : s.all (fun kv => hashableVal kv.2) = true) :
    beqValList (rowVec cols r) (rowVec cols s) = true ↔
      ∀ k ∈ cols, cellVal r k = cellVal s k := by
  rw [beqValList_scalar_iff
    (fun v hv => by
      obtain ⟨k, _, rfl⟩ := List.mem_map.mp hv
      exact cellVal_hashable hr)
    (fun v hv => by
      obtain ⟨k, _, rfl⟩ := List.mem_map.mp hv
      exact cellVal_hashable hs)]
  exact List.map_inj_left

theorem eqRowTot_iff {r s : Row}
    (hr : r.all (fun kv => hashableVal kv.2) = true)
    (hs : s.all (fun kv => hashableVal kv.2) = true) :
    eqRowTot r s = true ↔ ∀ k, cellVal r k = cellVal s k := by
  unfold eqRowTot
  rw [List.all_eq_true]
  constructor
  · intro h k
    by_cases hk : k ∈ rowColumns [r, s]
    · exact (beqVal_scalar_iff (cellVal_hashable hr) (cellVal_hashable hs)).mp
        (h k hk)
    · have hr2 : ∀ v, (k, v) ∉ r :=
        fun v hv => hk (mem_rowColumns_of_key (by simp) hv)
      have hs2 : ∀ v, (k, v) ∉ s :=
        fun v hv => hk (mem_rowColumns_of_key (by simp) hv)
      rw [cellVal_null_of_no_key hr2, cellVal_null_of_no_key hs2]
  · intro h k _
    exact (beqVal_scalar_iff (cellVal_hashable hr) (cellVal_hashable hs)).mpr (h k)

/-- Over a column list containing every key of both rows, the aligned-vector
comparison pandas performs agrees with row-level structural equality with
missing ≡ null. -/
theorem vec_beq_eq_eqRowTot {cols : List String} {r s : Row}
    (hr : r.all (fun kv => hashableVal kv.2) = true)
    (hs : s.all (fun kv => hashableVal kv.2) = true)
    (hrc : ∀ k v, (k, v) ∈ r → k ∈ cols)
    (hsc : ∀ k v, (k, v) ∈ s → k ∈ cols) :
    beqValList (rowVec cols r) (rowVec cols s) = eqRowTot r s := by
  apply bool_eq_of_iff
  rw [rowVec_beq_iff hr hs, eqRowTot_iff hr hs]
  constructor
  · intro h k
    by_cases hk : k ∈ cols
    · exact h k hk
    · have hr2 : ∀ v, (k, v) ∉ r := fun v hv => hk (hrc k v hv)
      have hs2 : ∀ v, (k, v) ∉ s := fun v hv => hk (hsc k v hv)
      rw [cellVal_null_of_no_key hr2, cellVal_null_of_no_key hs2]
  · intro h k _
    exact h k

theorem eqRowTot_comm {r s : Row}
    (hr : r.all (fun kv => hashableVal kv.2) = true)
    (hs : s.all (fun kv => hashableVal kv.2) = true) :
    eqRowTot r s = eqRowTot s r := by
  apply bool_eq_of_iff
  rw [eqRowTot_iff hr hs, eqRowTot_iff hs hr]
  exact ⟨fun h k => (h k).symm, fun h k => (h k).symm⟩

/-- The pandas duplicate mask computes the spec's first-seen fold: with the
seen-vector list semantically matching the kept-row accumulator, filtering
the unmasked rows extends the accumulator exactly as the fold does. -/
theorem dedup_main {cols : List String} :
    ∀ (rest acc : List Row) (seen : List (List JsonVal)),
    (∀ r ∈ rest, r.all (fun kv => hashableVal kv.2) = true) →
    (∀ r ∈ rest, ∀ k v, (k, v) ∈ r → k ∈ cols) →
    (∀ r ∈ acc, r.all (fun kv => hashableVal kv.2) = true) →
    (∀ r2 : Row, r2.all (fun kv => hashableVal kv.2) = true →
      (∀ k v, (k, v) ∈ r2 → k ∈ cols) →
      seen.any (fun w => beqValList (rowVec cols r2) w)
        = acc.any (fun s => eqRowTot s r2)) →
    acc ++ ((rest.zip (dupMask (rest.map (rowVec cols)) seen)).filter
        (fun p => !p.2)).map (fun p => p.1)
      = rest.foldl
          (fun acc r => if acc.any (fun s => eqRowTot s r) then acc
            else acc ++ [r]) acc := by
  intro rest
  induction rest with
  | nil => intro acc seen _ _ _ _; simp [dupMask]
  | cons r rest ih =>
    intro acc seen hresth hrestc hacch hseen
    have hrh := hresth r (by simp)
    have hrc := hrestc r (by simp)
    have hresth' : ∀ x ∈ rest, x.all (fun kv => hashableVal kv.2) = true :=
      fun x hx => hresth x (by simp [hx])
    have hrestc' : ∀ x ∈ rest, ∀ k v, (k, v) ∈ x → k ∈ cols :=
      fun x hx => hrestc x (by simp [hx])
    simp only [List.map_cons]
    rw [show dupMask (rowVec cols r :: rest.map (rowVec cols)) seen
        = (seen.any (fun w => beqValList (rowVec cols r) w))
          :: dupMask (rest.map (rowVec cols)) (seen ++ [rowVec cols r]) from rfl]
    rw [hseen r hrh hrc, List.foldl_cons]
    by_cases hdup : acc.any (fun s => eqRowTot s r) = true
    · rw [hdup, if_pos rfl]
      rw [List.zip_cons_cons, List.filter_cons, if_neg (by simp)]
      apply ih acc (seen ++ [rowVec cols r]) hresth' hrestc' hacch
      intro r2 h2h h2c
      rw [List.any_append, hseen r2 h2h h2c]
      simp only [List.any_cons, List.any_nil, Bool.or_false]
      rw [vec_beq_eq_eqRowTot h2h hrh h2c hrc]
      by_cases heq : eqRowTot r2 r = true
      · rw [heq, Bool.or_true]
        obtain ⟨s, hsacc, hs⟩ := List.any_eq_true.mp hdup
        have hsh := hacch s hsacc
        have hsr := (eqRowTot_iff hsh hrh).mp hs
        have h2r := (eqRowTot_iff h2h hrh).mp heq
        have hs2 : eqRowTot s r2 = true :=
          (eqRowTot_iff hsh h2h).mpr (fun k => (hsr k).trans (h2r k).symm)
        exact (List.any_eq_true.mpr ⟨s, hsacc, hs2⟩).symm
      · rw [eq_false_of_ne_true heq, Bool.or_false]
    · have hfalse : acc.any (fun s => eqRowTot s r) = false :=
        eq_false_of_ne_true hdup
      rw [hfalse, if_neg (by simp)]
      rw [List.zip_cons_cons, List.filter_cons, if_pos (by simp)]
      rw [List.map_cons, List.append_cons]
      apply ih (acc ++ [r]) (seen ++ [rowVec cols r]) hresth' hrestc'
        (fun x hx => by
          rcases List.mem_append.mp hx with hx | hx
          · exact hacch x hx
          · rcases List.mem_singleton.mp hx with rfl
            exact hrh)
      intro r2 h2h h2c
      rw [List.any_append, hseen r2 h2h h2c, List.any_append]
      simp only [List.any_cons, List.any_nil, Bool.or_false]
      rw [vec_beq_eq_eqRowTot h2h hrh h2c hrc, eqRowTot_comm hrh h2h]

/-- C9, amended: for row sequences whose fields are all scalar (the only
ones pandas can deduplicate — a list- or dict-valued cell raises
`TypeError`), `drop_duplicates` keeps exactly the first occurrence of each
row under DataFrame alignment: rows are compared over the union of all
field names with a missing field equal to a null field, and survivors keep
first-seen order. -/
theorem C9_amended_dedup (rows : List Row) (h : allHashable rows = true) :
    drop_duplicates rows = .ok (dedup_first_seen rows) := by
  simp only [drop_duplicates, h, if_true]
  congr 1
  have hmain := @dedup_main (rowColumns rows) rows [] []
    (fun r hr => rowHashable_of_mem h hr)
    (fun r hr k v hk => mem_rowColumns_of_key hr hk)
    (by simp)
    (fun r2 _ _ => by simp)
  simpa [dedup_first_seen] using hmain

/-- Witness for `C9_amended_dedup` on a concrete row sequence with a
duplicate. -/
theorem C9_witness :
    allHashable [[("a", JsonVal.num 1)], [("a", JsonVal.num 1)],
        [("a", JsonVal.num 2)]] = true ∧
    drop_duplicates [[("a", JsonVal.num 1)], [("a", JsonVal.num 1)],
        [("a", JsonVal.num 2)]]
      = .ok (dedup_first_seen [[("a", JsonVal.num 1)], [("a", JsonVal.num 1)],
        [("a", JsonVal.num 2)]]) :=
  ⟨rfl, C9_amended_dedup _ rfl⟩

/-- C9, counterexample: the claim's dedup equality is strict structural
identity across every field, but pandas aligns rows to the column union
with missing cells as NaN and treats None and NaN as equal: the row
`{"a": 1, "b": null}` is removed as a duplicate of `{"a": 1}`, although the
two rows are not structurally identical (one has a `b` field, the other
does not). -/
theorem C9_counterexample :
    drop_duplicates [[("a", JsonVal.num 1)], [("a", JsonVal.num 1), ("b", JsonVal.null)]]
      = .ok [[("a", JsonVal.num 1)]] ∧
    eqRowStrict [("a", JsonVal.num 1)] [("a", JsonVal.num 1), ("b", JsonVal.null)]
      = false ∧
    dictGet [("a", JsonVal.num 1)] "b" = none ∧
    dictGet [("a", JsonVal.num 1), ("b", JsonVal.null)] "b" = some JsonVal.null := by
  exact ⟨rfl, rfl, rfl, rfl⟩
